import Mathlib

/-!
Verification of the Sudoku core (`SudokuUtils` in `src/lib/sudoku.ts`) and the
solver-mode propagation loop (`updateAutoSolvedCells` in
`src/components/solver-mode.tsx`).

Grids are embedded as lists of lists of optional naturals, mirroring the
TypeScript `SudokuGrid = SudokuCell[][]` with `SudokuCell = number | null`.
Cell access `grid[r][c]` is embedded as `cell`, which reads through nested
`List.getD` (for well-formed 9 by 9 grids this is exactly the source's
indexing).  The recursive backtracking solver is embedded with explicit fuel;
fuel `81` is enough because each recursive call fills one empty cell, and we
prove the fuel-independence facts we need.
-/

set_option maxHeartbeats 1000000
set_option maxRecDepth 20000

namespace Sudoku

/-- `SudokuCell = number | null`. -/
abbrev Cell := Option Nat

/-- `SudokuGrid = SudokuCell[][]`. -/
abbrev Grid := List (List Cell)

/-- `createEmptyGrid`: 9 rows of 9 `null`s. -/
def createEmptyGrid : Grid := List.replicate 9 (List.replicate 9 (none : Cell))

/-- `copyGrid(grid) = grid.map(row => [...row])`: a fresh value-equal grid. -/
def copyGrid (g : Grid) : Grid := g.map (fun row => row.map id)

/-- The read `grid[r][c]` (total via defaults; source grids are 9 by 9). -/
def cell (g : Grid) (r c : Nat) : Cell := (g.getD r []).getD c none

/-- The write `grid[r][c] = v`. -/
def setCell (g : Grid) (r c : Nat) (v : Cell) : Grid :=
  g.set r ((g.getD r []).set c v)

/-- Well-formedness of a source grid: 9 rows of length 9. -/
def WF (g : Grid) : Prop := g.length = 9 ∧ ∀ row ∈ g, row.length = 9

instance : DecidablePred WF := fun g => by
  unfold WF; infer_instance

/-- `isValidMove(grid,row,col,num)` from `src/lib/sudoku.ts` lines 12-33:
row scan, column scan, then the 3x3 box scan, returning `false` as soon as
`num` is seen at a position other than `(row,col)` itself. -/
def isValidMove (g : Grid) (row col num : Nat) : Bool :=
  ((List.range 9).all fun c => decide (c = col ∨ cell g row c ≠ some num)) &&
  ((List.range 9).all fun r => decide (r = row ∨ cell g r col ≠ some num)) &&
  (let boxRow := row / 3 * 3
   let boxCol := col / 3 * 3
   (List.range 3).all fun i => (List.range 3).all fun j =>
     decide ((boxRow + i = row ∧ boxCol + j = col) ∨
       cell g (boxRow + i) (boxCol + j) ≠ some num))

/-- The seen-set scan shared by the three validity loops of `isValid`
(lines 44-86): walk the cells, return `false` on the first filled value
already seen, otherwise accumulate it. -/
def scanDup : List Cell → List Nat → Bool
  | [], _ => true
  | none :: rest, seen => scanDup rest seen
  | some v :: rest, seen =>
    if v ∈ seen then false else scanDup rest (v :: seen)

/-- The cells of row `row` in scan order. -/
def rowCells (g : Grid) (row : Nat) : List Cell :=
  (List.range 9).map fun c => cell g row c

/-- The cells of column `col` in scan order. -/
def colCells (g : Grid) (col : Nat) : List Cell :=
  (List.range 9).map fun r => cell g r col

/-- The cells of box `(boxRow, boxCol)` in scan order (row-major inside the
box, as the source loops iterate). -/
def boxCells (g : Grid) (boxRow boxCol : Nat) : List Cell :=
  ((List.range 3).map fun i => (List.range 3).map fun j =>
    cell g (boxRow * 3 + i) (boxCol * 3 + j)).flatten

/-- `isValid(grid)` (lines 44-86): every row, column and box passes the
seen-set duplicate scan. -/
def isValid (g : Grid) : Bool :=
  ((List.range 9).all fun row => scanDup (rowCells g row) []) &&
  ((List.range 9).all fun col => scanDup (colCells g col) []) &&
  ((List.range 3).all fun boxRow => (List.range 3).all fun boxCol =>
    scanDup (boxCells g boxRow boxCol) [])

/-- `isComplete(grid)` (lines 35-42): no `null` cell, and `isValid`. -/
def isComplete (g : Grid) : Bool :=
  ((List.range 9).all fun row => (List.range 9).all fun col =>
    decide (cell g row col ≠ none)) && isValid g

/-- A `(row, col)` coordinate pair. -/
structure Pos where
  row : Nat
  col : Nat
deriving DecidableEq, Repr

instance : Inhabited Pos := ⟨Pos.mk 0 0⟩

/-- The three conflict scopes of the `Conflict` interface. -/
inductive ScopeType where
  | row
  | column
  | box
deriving DecidableEq, Repr

/-- One entry of the `Conflict[]` result of `findConflicts`. -/
structure Conflict where
  type : ScopeType
  index : Nat
  cells : List Pos
deriving DecidableEq, Repr

/-- `seen.get(val)!.push(idx)` on the insertion-ordered `Map` used by
`findConflicts`: append `idx` to the bucket of `v`, creating the bucket at the
end on first occurrence (JS `Map` iterates in insertion order). -/
def insertOcc {α : Type} (m : List (Nat × List α)) (v : Nat) (x : α) :
    List (Nat × List α) :=
  match m with
  | [] => [(v, [x])]
  | (k, xs) :: rest =>
    if k = v then (k, xs ++ [x]) :: rest else (k, xs) :: insertOcc rest v x

/-- The bucket-filling loop of each `findConflicts` scope: walk the scope's
cells with their tags, pushing each filled value's tag into its bucket. -/
def collectOcc {α : Type} : List (α × Cell) → List (Nat × List α) →
    List (Nat × List α)
  | [], m => m
  | (_, none) :: rest, m => collectOcc rest m
  | (i, some v) :: rest, m => collectOcc rest (insertOcc m v i)

/-- The row section of `findConflicts` (lines 91-110): buckets with two or
more columns become one `Conflict` each, in bucket insertion order. -/
def rowConflicts (g : Grid) (row : Nat) : List Conflict :=
  let m := collectOcc ((List.range 9).map fun c => (c, cell g row c)) []
  (m.filter fun b => b.2.length > 1).map fun b =>
    { type := ScopeType.row, index := row,
      cells := b.2.map fun col => { row := row, col := col } }

/-- The column section of `findConflicts` (lines 112-131). -/
def colConflicts (g : Grid) (col : Nat) : List Conflict :=
  let m := collectOcc ((List.range 9).map fun r => (r, cell g r col)) []
  (m.filter fun b => b.2.length > 1).map fun b =>
    { type := ScopeType.column, index := col,
      cells := b.2.map fun row => { row := row, col := col } }

/-- The box section of `findConflicts` (lines 133-156); box `(boxRow,boxCol)`
gets index `boxRow * 3 + boxCol` and stores coordinates directly. -/
def boxConflicts (g : Grid) (boxRow boxCol : Nat) : List Conflict :=
  let m := collectOcc
    (((List.range 3).map fun i => (List.range 3).map fun j =>
      (Pos.mk (boxRow * 3 + i) (boxCol * 3 + j),
        cell g (boxRow * 3 + i) (boxCol * 3 + j))).flatten) []
  (m.filter fun b => b.2.length > 1).map fun b =>
    { type := ScopeType.box, index := boxRow * 3 + boxCol, cells := b.2 }

/-- `findConflicts(grid)` (lines 88-159): row conflicts, then column
conflicts, then box conflicts, in scan order. -/
def findConflicts (g : Grid) : List Conflict :=
  ((List.range 9).map fun row => rowConflicts g row).flatten ++
  ((List.range 9).map fun col => colConflicts g col).flatten ++
  (((List.range 3).map fun boxRow => (List.range 3).map fun boxCol =>
    boxConflicts g boxRow boxCol).flatten).flatten

/-- The row-major coordinate scan shared by `findEmpty`, `getHint` and the
solver-mode loops. -/
def rowMajor : List Pos :=
  ((List.range 9).map fun r => (List.range 9).map fun c => Pos.mk r c).flatten

/-- `findEmpty` inside `solve` (lines 164-171): first empty cell in row-major
order. -/
def findEmpty (g : Grid) : Option Pos :=
  rowMajor.find? fun p => cell g p.row p.col == none

/-- The `for (num = 1; num <= 9; ...)` loop of `backtrack` (lines 178-184),
with the recursive call passed in as `rec`.  Writing the candidate into a
functional copy and keeping the unmodified grid for the next iteration is the
pure rendering of the source's write-then-undo on the shared `gridCopy`. -/
def tryNums (rec : Grid → Option Grid) (g : Grid) (r c : Nat) :
    List Nat → Option Grid
  | [] => none
  | n :: rest =>
    if isValidMove g r c n then
      match rec (setCell g r c (some n)) with
      | some s => some s
      | none => tryNums rec g r c rest
    else tryNums rec g r c rest

/-- `backtrack` (lines 173-186) with explicit fuel: succeed when no empty
cell remains, otherwise try 1..9 at the first empty cell.  Each recursive
call fills one empty cell, so fuel 81 restores the source's unbounded
recursion (`solveAux_complete` below shows fuel 81 always suffices). -/
def solveAux : Nat → Grid → Option Grid
  | fuel, g =>
    match findEmpty g with
    | none => some g
    | some p =>
      match fuel with
      | 0 => none
      | fuel' + 1 => tryNums (solveAux fuel') g p.row p.col (List.range' 1 9)

/-- `solve(grid)` (lines 161-189): run the backtracking search on a copy. -/
def solve (g : Grid) : Option Grid := solveAux 81 (copyGrid g)

/-- The `Hint` interface. -/
structure Hint where
  row : Nat
  col : Nat
  value : Nat
  reason : String
deriving DecidableEq, Repr

/-- The candidate list computed for an empty cell in `getHint` and in
`updateAutoSolvedCells`: values 1..9 passing `isValidMove`. -/
def possibilitiesAt (g : Grid) (r c : Nat) : List Nat :=
  (List.range' 1 9).filter fun n => isValidMove g r c n

/-- Join a list of naturals with a comma separator, as
`possibilities.join(char 44 ++ space)` does. -/
def joinComma : List Nat → String
  | [] => ""
  | [n] => toString n
  | n :: rest => toString n ++ ", " ++ joinComma rest

/-- The double scan loop of `getHint` (lines 253-283), threading the
`bestHint` and `minPossibilities` locals: return immediately on a
single-candidate empty cell, otherwise remember the first cell strictly
improving the fewest-candidates count. -/
def getHintLoop (g : Grid) : List Pos → Option Hint → Nat → Option Hint
  | [], best, _ => best
  | p :: rest, best, minP =>
    if cell g p.row p.col = none then
      let poss := possibilitiesAt g p.row p.col
      if poss.length = 1 then
        some { row := p.row, col := p.col, value := poss.headD 0,
               reason := "This is the only number that can go in this cell." }
      else if 0 < poss.length ∧ poss.length < minP then
        getHintLoop g rest
          (some { row := p.row, col := p.col, value := poss.headD 0,
                  reason := "This cell has only " ++ toString poss.length ++
                    " possibilities: " ++ joinComma poss ++ "." })
          poss.length
      else getHintLoop g rest best minP
    else getHintLoop g rest best minP

/-- `getHint(grid)` (lines 248-286): scan all cells in row-major order with
`bestHint = null` and `minPossibilities = 10`. -/
def getHint (g : Grid) : Option Hint := getHintLoop g rowMajor none 10

/-- The six difficulty tiers. -/
inductive Difficulty where
  | easy
  | medium
  | hard
  | expert
  | master
  | extreme
deriving DecidableEq, Repr

/-- `getCellsToRemove(difficulty)` (lines 236-246): the fixed removal
table. -/
def getCellsToRemove : Difficulty → Nat
  | Difficulty.easy => 35
  | Difficulty.medium => 45
  | Difficulty.hard => 50
  | Difficulty.expert => 55
  | Difficulty.master => 60
  | Difficulty.extreme => 65

/-- One Fisher-Yates swap `[a[i], a[j]] = [a[j], a[i]]` on a list. -/
def swapL {α : Type} [Inhabited α] (l : List α) (i j : Nat) : List α :=
  (l.set i (l.getD j default)).set j (l.getD i default)

/-- The Fisher-Yates loop `for (i = n-1; i > 0; i--)` of lines 206-209 and
225-228.  `Math.floor(Math.random() * (i + 1))` is an arbitrary draw in
`[0, i]`; it is modelled by an arbitrary stream `rand : Nat → Nat` reduced
into range with `% (i + 1)`. -/
def fyLoop {α : Type} [Inhabited α] (rand : Nat → Nat) : List α → Nat → List α
  | l, 0 => l
  | l, i + 1 => fyLoop rand (swapL l (i + 1) (rand (i + 1) % (i + 2))) i

/-- `generateComplete` (lines 220-234): shuffle `[1..9]` into row 0 of an
empty grid, solve the rest, and fall back to the empty grid if the solver
fails (`solved || this.createEmptyGrid()`). -/
def generateComplete (rand : Nat → Nat) : Grid :=
  let firstRow := fyLoop rand (List.range' 1 9) 8
  let grid := createEmptyGrid.set 0 (firstRow.map some)
  (solve grid).getD createEmptyGrid

/-- `generatePuzzle(difficulty)` (lines 191-218): copy a generated solution,
shuffle all 81 coordinates, and blank the first `cellsToRemove` of them.
The two independent streams of `Math.random()` draws are the `randRow` and
`randPos` parameters. -/
def generatePuzzle (difficulty : Difficulty) (randRow randPos : Nat → Nat) :
    Grid × Grid :=
  let solution := generateComplete randRow
  let puzzle := copyGrid solution
  let cellsToRemove := getCellsToRemove difficulty
  let positions := fyLoop randPos rowMajor 80
  let puzzle := (positions.take cellsToRemove).foldl
    (fun pz p => setCell pz p.row p.col none) puzzle
  (puzzle, solution)

/-!  The solver-mode propagation step (`updateAutoSolvedCells`,
`src/components/solver-mode.tsx` lines 49-109).  The JS `Set<string>` of
`"row-col"` keys is embedded as a `Finset Pos`. -/

/-- The `userCells` set built at lines 54-61: coordinates filled in the
grid and not in the previous `autoSolvedCells` set. -/
def userCellsOf (g : Grid) (autoSolved : Finset Pos) : Finset Pos :=
  rowMajor.foldl
    (fun s p => if cell g p.row p.col ≠ none ∧ p ∉ autoSolved
      then insert p s else s) ∅

/-- One cell step of the inner double loop (lines 68-92): fill an empty
cell that has exactly one candidate and is not user-authored, recording it
as deduced and raising the `foundNewInThisIteration` flag. -/
def cellStep (userCells : Finset Pos) (st : Grid × Finset Pos × Bool)
    (p : Pos) : Grid × Finset Pos × Bool :=
  if cell st.1 p.row p.col = none then
    let poss := possibilitiesAt st.1 p.row p.col
    if poss.length = 1 then
      if p ∉ userCells then
        (setCell st.1 p.row p.col (some (poss.headD 0)),
         insert p st.2.1, true)
      else st
    else st
  else st

/-- One full pass of the `while (foundNewInThisIteration)` body: scan all
81 cells in row-major order, threading the working grid, the new deduced
set, and the found flag (reset to `false` at the start of the pass). -/
def passOnce (userCells : Finset Pos) (g : Grid) (ded : Finset Pos) :
    Grid × Finset Pos × Bool :=
  rowMajor.foldl (cellStep userCells) (g, ded, false)

/-- The `while (foundNewInThisIteration)` loop (lines 64-93), with fuel.
Each continuing pass fills at least one empty cell, so fuel 82 restores the
source's unbounded loop (proved below). -/
def propagateLoop (userCells : Finset Pos) :
    Grid → Finset Pos → Nat → Grid × Finset Pos
  | g, ded, 0 => (g, ded)
  | g, ded, fuel + 1 =>
    let st := passOnce userCells g ded
    if st.2.2 then propagateLoop userCells st.1 st.2.1 fuel else (st.1, st.2.1)

/-- `updateAutoSolvedCells` (lines 49-109) as a function of the state it
reads, returning the state it writes: compute `userCells`, run the
fixed-point propagation starting from an empty deduced set, then keep every
previously deduced key that is not user-authored (lines 95-100). -/
def updateAutoSolvedCells (g : Grid) (autoSolved : Finset Pos) :
    Grid × Finset Pos :=
  let userCells := userCellsOf g autoSolved
  let st := propagateLoop userCells (copyGrid g) ∅ 82
  (st.1, st.2 ∪ autoSolved.filter (fun p => p ∉ userCells))

/-!  Aliasing model for `copyGrid` (lines 8-10).  In JS a `SudokuGrid` value
is an array of *references* to row arrays; `grid.map(row => [...row])`
allocates nine fresh row arrays.  We model the row heap explicitly: a store
of row arrays, and a grid as a list of indices into the store.  Fresh
allocation appends to the store, so copied rows never alias the original's
rows, which is the content of the spec's "rows must not alias". -/

/-- The heap of row arrays. -/
abbrev Store := List (List Cell)

/-- A grid value as JS sees it: references to row arrays. -/
abbrev GridRef := List Nat

/-- Read `grid[r][c]` through the store. -/
def readCellS (st : Store) (gr : GridRef) (r c : Nat) : Cell :=
  (st.getD (gr.getD r 0) []).getD c none

/-- `copyGrid(grid) = grid.map(row => [...row])` in the store model: allocate
one fresh row array per row (appended to the store) and return the new
references. -/
def copyGridS (st : Store) (gr : GridRef) : Store × GridRef :=
  (st ++ gr.map (fun ref => st.getD ref []),
   (List.range gr.length).map (fun i => st.length + i))

/-- Write `grid[r][c] = v` through the store. -/
def writeCellS (st : Store) (gr : GridRef) (r c : Nat) (v : Cell) : Store :=
  let ref := gr.getD r 0
  st.set ref ((st.getD ref []).set c v)

/-- A sequence of writes through a grid reference, the mutation trace of the
`backtrack` recursion on its private `gridCopy`. -/
def writesS (gr : GridRef) (st : Store) (ws : List (Nat × Nat × Cell)) :
    Store :=
  ws.foldl (fun s w => writeCellS s gr w.1 w.2.1 w.2.2) st

/-! ### Basic list lemmas -/

theorem getD_set_eq {α : Type} (l : List α) (i : Nat) (a d : α)
    (h : i < l.length) : (l.set i a).getD i d = a := by
  simp [List.getD_eq_getElem?_getD, List.getElem?_set_self',
    List.getElem?_eq_getElem h]

theorem getD_set_ne {α : Type} (l : List α) {i j : Nat} (hij : i ≠ j)
    (a d : α) : (l.set i a).getD j d = l.getD j d := by
  simp [List.getD_eq_getElem?_getD, List.getElem?_set_ne hij]

theorem getD_map_range {α : Type} (f : Nat → α) {n i : Nat} (d : α)
    (h : i < n) : (((List.range n).map f).getD i d) = f i := by
  simp [List.getD_eq_getElem?_getD, List.getElem?_map, List.getElem?_range h]

theorem count_set_add {α : Type} [DecidableEq α] (l : List α) (i : Nat)
    (a x : α) (hi : i < l.length) :
    (l.set i a).count x + (if l[i] = x then 1 else 0) =
      l.count x + (if a = x then 1 else 0) := by
  induction l generalizing i with
  | nil => simp at hi
  | cons h t ih =>
    cases i with
    | zero => simp [List.count_cons]; omega
    | succ n =>
      simp only [List.set_cons_succ, List.count_cons, List.getElem_cons_succ]
      have := ih n (by simpa using hi)
      omega

theorem count_filterMap_id (l : List Cell) (v : Nat) :
    (l.filterMap id).count v = l.count (some v) := by
  induction l with
  | nil => rfl
  | cons h t ih => cases h <;> simp [List.filterMap_cons, List.count_cons, ih]

/-! ### `rowMajor`, `cell` and `setCell` -/

theorem mem_rowMajor {p : Pos} : p ∈ rowMajor ↔ p.row < 9 ∧ p.col < 9 := by
  cases p with
  | mk r c =>
    simp only [rowMajor, List.mem_flatten, List.mem_map, List.mem_range]
    constructor
    · rintro ⟨_, ⟨r', hr', rfl⟩, hp⟩
      obtain ⟨c', hc', h⟩ := List.mem_map.mp hp
      obtain ⟨rfl, rfl⟩ : r' = r ∧ c' = c := by
        cases h; exact ⟨rfl, rfl⟩
      exact ⟨hr', List.mem_range.mp hc'⟩
    · rintro ⟨hr, hc⟩
      exact ⟨(List.range 9).map fun c' => Pos.mk r c', ⟨r, hr, rfl⟩,
        List.mem_map.mpr ⟨c, List.mem_range.mpr hc, rfl⟩⟩

theorem rowMajor_nodup : rowMajor.Nodup := by decide

theorem rowMajor_length : rowMajor.length = 81 := by decide

theorem copyGrid_eq (g : Grid) : copyGrid g = g := by
  simp [copyGrid]

theorem WF_setCell {g : Grid} (h : WF g) (r c : Nat) (v : Cell) :
    WF (setCell g r c v) := by
  obtain ⟨hlen, hrow⟩ := h
  rcases Nat.lt_or_ge r g.length with hr | hr
  · refine ⟨by simpa [setCell] using hlen, ?_⟩
    intro row hmem
    rcases List.mem_or_eq_of_mem_set hmem with h' | rfl
    · exact hrow row h'
    · rw [List.length_set]
      exact hrow _ (List.getD_eq_getElem _ _ hr ▸ List.getElem_mem hr)
  · have : setCell g r c v = g := by
      simp [setCell, List.set_eq_of_length_le hr]
    rw [this]; exact ⟨hlen, hrow⟩

theorem cell_setCell_eq {g : Grid} (h : WF g) {r c : Nat} (hr : r < 9)
    (hc : c < 9) (v : Cell) : cell (setCell g r c v) r c = v := by
  obtain ⟨hlen, hrow⟩ := h
  have hrl : r < g.length := by omega
  have hcl : c < (g.getD r []).length := by
    rw [hrow _ (List.getD_eq_getElem _ _ hrl ▸ List.getElem_mem hrl)]; omega
  simp only [cell, setCell]
  rw [getD_set_eq _ _ _ _ hrl, getD_set_eq _ _ _ _ hcl]

theorem cell_setCell_ne {g : Grid} (h : WF g) {r c r' c' : Nat}
    (hne : r' ≠ r ∨ c' ≠ c) (v : Cell) :
    cell (setCell g r c v) r' c' = cell g r' c' := by
  rcases Nat.decEq r r' with hr | hr
  · simp only [cell, setCell]
    rw [getD_set_ne _ hr]
  · subst hr
    have hcc : c' ≠ c := by tauto
    obtain ⟨hlen, hrow⟩ := h
    rcases Nat.lt_or_ge r g.length with hrl | hrl
    · simp only [cell, setCell]
      rw [getD_set_eq _ _ _ _ hrl, getD_set_ne _ (Ne.symm hcc)]
    · simp only [cell, setCell]
      rw [List.set_eq_of_length_le hrl]

theorem cell_none_of_out_of_range {g : Grid} (h : WF g) {r c : Nat}
    (hout : 9 ≤ r ∨ 9 ≤ c) : cell g r c = none := by
  obtain ⟨hlen, hrow⟩ := h
  rcases hout with hr | hc
  · rw [cell, List.getD_eq_default g [] (by omega)]
    simp [List.getD]
  · rcases Nat.lt_or_ge r g.length with hrl | hrl
    · have h9 : (g.getD r []).length = 9 :=
        hrow _ (List.getD_eq_getElem _ _ hrl ▸ List.getElem_mem hrl)
      rw [cell, List.getD_eq_default _ none (by omega)]
    · rw [cell, List.getD_eq_default g [] (by omega)]
      simp [List.getD]

theorem cell_some_range {g : Grid} (h : WF g) {r c : Nat} {v : Nat}
    (hv : cell g r c = some v) : r < 9 ∧ c < 9 := by
  by_contra hcon
  rw [cell_none_of_out_of_range h (by omega)] at hv
  exact Option.noConfusion hv

/-! ### Duplicate-freedom specifications -/

/-- Box index of a coordinate: `(row/3)*3 + (col/3)` by integer division. -/
def boxIndex (r c : Nat) : Nat := r / 3 * 3 + c / 3

/-- No value occurs twice in a row. -/
def RowsGood (g : Grid) : Prop :=
  ∀ r c1 c2 v, r < 9 → c1 < 9 → c2 < 9 → c1 ≠ c2 →
    cell g r c1 = some v → cell g r c2 ≠ some v

/-- No value occurs twice in a column. -/
def ColsGood (g : Grid) : Prop :=
  ∀ c r1 r2 v, c < 9 → r1 < 9 → r2 < 9 → r1 ≠ r2 →
    cell g r1 c = some v → cell g r2 c ≠ some v

/-- No value occurs twice in a box. -/
def BoxesGood (g : Grid) : Prop :=
  ∀ r1 c1 r2 c2 v, r1 < 9 → c1 < 9 → r2 < 9 → c2 < 9 →
    ¬(r1 = r2 ∧ c1 = c2) → r1 / 3 = r2 / 3 → c1 / 3 = c2 / 3 →
    cell g r1 c1 = some v → cell g r2 c2 ≠ some v

/-- Full duplicate-freedom: the specification `is_grid_valid`. -/
def Good (g : Grid) : Prop := RowsGood g ∧ ColsGood g ∧ BoxesGood g

theorem scanDup_eq_true_iff (l : List Cell) (seen : List Nat) :
    scanDup l seen = true ↔
      (l.filterMap id).Nodup ∧ ∀ v ∈ l.filterMap id, v ∉ seen := by
  induction l generalizing seen with
  | nil => simp [scanDup]
  | cons h t ih =>
    cases h with
    | none => simpa [scanDup, List.filterMap_cons] using ih seen
    | some v =>
      have hfc : ((some v : Cell) :: t).filterMap id = v :: t.filterMap id := by
        simp
      by_cases hv : v ∈ seen
      · simp only [scanDup, if_pos hv, hfc]
        constructor
        · intro hfalse; exact absurd hfalse (by simp)
        · rintro ⟨-, hall⟩
          exact absurd (hall v (List.mem_cons_self v _)) (by simp [hv])
      · simp only [scanDup, if_neg hv, hfc]
        rw [ih]
        constructor
        · rintro ⟨hnd, hall⟩
          refine ⟨List.nodup_cons.mpr ⟨?_, hnd⟩, ?_⟩
          · intro hmem
            exact hall v hmem (List.mem_cons_self v seen)
          · intro w hw
            rcases List.mem_cons.mp hw with rfl | hw2
            · exact hv
            · intro hws
              exact hall w hw2 (List.mem_cons.mpr (Or.inr hws))
        · rintro ⟨hnd, hall⟩
          obtain ⟨hvm, hnd2⟩ := List.nodup_cons.mp hnd
          refine ⟨hnd2, ?_⟩
          intro w hw hws
          rcases List.mem_cons.mp hws with rfl | hws2
          · exact hvm hw
          · exact hall w (List.mem_cons.mpr (Or.inr hw)) hws2

theorem scanDup_nil_iff (l : List Cell) :
    scanDup l [] = true ↔ (l.filterMap id).Nodup := by
  simp [scanDup_eq_true_iff]

/-- Duplicate-freedom of an indexed family of cells, positionally. -/
theorem nodup_filterMap_cells_iff (f : Nat → Cell) (n : Nat) :
    (((List.range n).map f).filterMap id).Nodup ↔
      ∀ i j v, i < n → j < n → i ≠ j → f i = some v → f j ≠ some v := by
  rw [List.Nodup, List.pairwise_filterMap, List.pairwise_map,
    List.pairwise_iff_getElem]
  simp only [List.getElem_range, List.length_range, Option.mem_def, id_eq]
  constructor
  · intro hp i j v hi hj hij hfi hfj
    rcases Nat.lt_or_ge i j with h | h
    · exact hp i j hi hj h v hfi v hfj rfl
    · have hlt : j < i := by omega
      exact hp j i hj hi hlt v hfj v hfi rfl
  · intro hp i j hi hj hij x hx y hy
    intro hxy
    subst hxy
    exact hp i j x hi hj (by omega) hx hy

theorem rowCells_scan_iff (g : Grid) (r : Nat) :
    scanDup (rowCells g r) [] = true ↔
      ∀ c1 c2 v, c1 < 9 → c2 < 9 → c1 ≠ c2 →
        cell g r c1 = some v → cell g r c2 ≠ some v := by
  rw [rowCells, scanDup_nil_iff, nodup_filterMap_cells_iff]

theorem colCells_scan_iff (g : Grid) (c : Nat) :
    scanDup (colCells g c) [] = true ↔
      ∀ r1 r2 v, r1 < 9 → r2 < 9 → r1 ≠ r2 →
        cell g r1 c = some v → cell g r2 c ≠ some v := by
  rw [colCells, scanDup_nil_iff, nodup_filterMap_cells_iff]

theorem boxCells_eq_map (g : Grid) (br bc : Nat) :
    boxCells g br bc =
      (List.range 9).map fun k => cell g (br * 3 + k / 3) (bc * 3 + k % 3) := by
  rfl

theorem boxCells_scan_iff (g : Grid) (br bc : Nat) :
    scanDup (boxCells g br bc) [] = true ↔
      ∀ k1 k2 v, k1 < 9 → k2 < 9 → k1 ≠ k2 →
        cell g (br * 3 + k1 / 3) (bc * 3 + k1 % 3) = some v →
        cell g (br * 3 + k2 / 3) (bc * 3 + k2 % 3) ≠ some v := by
  rw [boxCells_eq_map, scanDup_nil_iff, nodup_filterMap_cells_iff]

theorem isValid_iff_Good (g : Grid) : isValid g = true ↔ Good g := by
  simp only [isValid, Bool.and_eq_true, List.all_eq_true, List.mem_range]
  constructor
  · rintro ⟨⟨hrows, hcols⟩, hboxes⟩
    refine ⟨?_, ?_, ?_⟩
    · intro r c1 c2 v hr hc1 hc2 hne h1
      exact (rowCells_scan_iff g r).mp (hrows r hr) c1 c2 v hc1 hc2 hne h1
    · intro c r1 r2 v hc hr1 hr2 hne h1
      exact (colCells_scan_iff g c).mp (hcols c hc) r1 r2 v hr1 hr2 hne h1
    · intro r1 c1 r2 c2 v hr1 hc1 hr2 hc2 hne hbr hbc h1
      have hb := (boxCells_scan_iff g (r1 / 3) (c1 / 3)).mp
        (hboxes (r1 / 3) (by omega) (c1 / 3) (by omega))
      have e1r : r1 / 3 * 3 + (r1 % 3 * 3 + c1 % 3) / 3 = r1 := by omega
      have e1c : c1 / 3 * 3 + (r1 % 3 * 3 + c1 % 3) % 3 = c1 := by omega
      have e2r : r1 / 3 * 3 + (r2 % 3 * 3 + c2 % 3) / 3 = r2 := by omega
      have e2c : c1 / 3 * 3 + (r2 % 3 * 3 + c2 % 3) % 3 = c2 := by omega
      have := hb (r1 % 3 * 3 + c1 % 3) (r2 % 3 * 3 + c2 % 3) v
        (by omega) (by omega) (by omega)
      rw [e1r, e1c, e2r, e2c] at this
      exact this h1
  · rintro ⟨hrows, hcols, hboxes⟩
    refine ⟨⟨?_, ?_⟩, ?_⟩
    · intro r hr
      exact (rowCells_scan_iff g r).mpr fun c1 c2 v hc1 hc2 hne h1 =>
        hrows r c1 c2 v hr hc1 hc2 hne h1
    · intro c hc
      exact (colCells_scan_iff g c).mpr fun r1 r2 v hr1 hr2 hne h1 =>
        hcols c r1 r2 v hc hr1 hr2 hne h1
    · intro br hbr bc hbc
      refine (boxCells_scan_iff g br bc).mpr ?_
      intro k1 k2 v hk1 hk2 hne h1
      refine hboxes _ _ _ _ v (by omega) (by omega) (by omega) (by omega)
        (by omega) (by omega) (by omega) h1

/-- Characterization of `isValidMove` as its three scans. -/
theorem isValidMove_eq_true_iff (g : Grid) (r c v : Nat) :
    isValidMove g r c v = true ↔
      (∀ c', c' < 9 → c' ≠ c → cell g r c' ≠ some v) ∧
      (∀ r', r' < 9 → r' ≠ r → cell g r' c ≠ some v) ∧
      (∀ i j, i < 3 → j < 3 → ¬(r / 3 * 3 + i = r ∧ c / 3 * 3 + j = c) →
        cell g (r / 3 * 3 + i) (c / 3 * 3 + j) ≠ some v) := by
  simp only [isValidMove, Bool.and_eq_true, List.all_eq_true, List.mem_range,
    decide_eq_true_eq]
  constructor
  · rintro ⟨⟨hrow, hcol⟩, hbox⟩
    refine ⟨fun c' hc' hne => (hrow c' hc').resolve_left hne,
      fun r' hr' hne => (hcol r' hr').resolve_left hne,
      fun i j hi hj hne => (hbox i hi j hj).resolve_left hne⟩
  · rintro ⟨hrow, hcol, hbox⟩
    refine ⟨⟨?_, ?_⟩, ?_⟩
    · intro c' hc'
      by_cases h : c' = c
      · exact Or.inl h
      · exact Or.inr (hrow c' hc' h)
    · intro r' hr'
      by_cases h : r' = r
      · exact Or.inl h
      · exact Or.inr (hcol r' hr' h)
    · intro i hi j hj
      by_cases h : r / 3 * 3 + i = r ∧ c / 3 * 3 + j = c
      · exact Or.inl h
      · exact Or.inr (hbox i j hi hj h)

/-! ### Solver lemmas -/

/-- `s` keeps every filled cell of `g` unchanged. -/
def Extends (g s : Grid) : Prop :=
  ∀ r c v, cell g r c = some v → cell s r c = some v

theorem Extends_refl (g : Grid) : Extends g g := fun _ _ _ h => h

theorem Extends_trans {g h s : Grid} (h1 : Extends g h) (h2 : Extends h s) :
    Extends g s := fun r c v hv => h2 r c v (h1 r c v hv)

/-- Number of empty cells. -/
def emptyCount (g : Grid) : Nat :=
  rowMajor.countP fun p => cell g p.row p.col == none

/-- Number of filled cells. -/
def filledCount (g : Grid) : Nat :=
  rowMajor.countP fun p => !(cell g p.row p.col == none)

theorem filledCount_add_emptyCount (g : Grid) :
    filledCount g + emptyCount g = 81 := by
  have h := List.length_eq_countP_add_countP
    (l := rowMajor) (p := fun p => cell g p.row p.col == none)
  rw [rowMajor_length] at h
  rw [filledCount, emptyCount]
  have hc : (fun p : Pos => !(cell g p.row p.col == none)) =
      fun p : Pos => decide ¬(cell g p.row p.col == none) = true := by
    funext p
    rcases cell g p.row p.col == none with _ | _ <;> simp
  rw [hc]
  omega

theorem findEmpty_eq_none_iff (g : Grid) :
    findEmpty g = none ↔ ∀ p ∈ rowMajor, cell g p.row p.col ≠ none := by
  simp [findEmpty, List.find?_eq_none]

theorem findEmpty_eq_some {g : Grid} {p : Pos} (h : findEmpty g = some p) :
    p.row < 9 ∧ p.col < 9 ∧ cell g p.row p.col = none := by
  have hmem := List.mem_of_find?_eq_some h
  have hpred := List.find?_some h
  rw [beq_iff_eq] at hpred
  exact ⟨(mem_rowMajor.mp hmem).1, (mem_rowMajor.mp hmem).2, hpred⟩

theorem emptyCount_eq_zero_iff (g : Grid) :
    emptyCount g = 0 ↔ findEmpty g = none := by
  rw [emptyCount, List.countP_eq_zero, findEmpty_eq_none_iff]
  constructor
  · intro h p hp hcell
    exact absurd (beq_iff_eq.mpr hcell) (by simpa using h p hp)
  · intro h p hp
    simpa using h p hp

theorem emptyCount_le (g : Grid) : emptyCount g ≤ 81 := by
  have := List.countP_le_length
    (l := rowMajor) (p := fun p => cell g p.row p.col == none)
  rwa [rowMajor_length] at this

theorem countP_update_mem {α : Type} {l : List α} (hnd : l.Nodup) {p0 : α}
    (hmem : p0 ∈ l) (f1 f2 : α → Bool) (hagree : ∀ x ∈ l, x ≠ p0 → f1 x = f2 x)
    (h1 : f1 p0 = false) (h2 : f2 p0 = true) :
    l.countP f1 + 1 = l.countP f2 := by
  induction l with
  | nil => cases hmem
  | cons a t ih =>
    obtain ⟨hat, hndt⟩ := List.nodup_cons.mp hnd
    rcases List.mem_cons.mp hmem with rfl | hm
    · have hcong : t.countP f1 = t.countP f2 := by
        apply List.countP_congr
        intro x hx
        rw [hagree x (List.mem_cons.mpr (Or.inr hx))
          (fun hxa => hat (hxa ▸ hx))]
      rw [List.countP_cons, List.countP_cons, h1, h2, hcong]
      simp
    · have ha : f1 a = f2 a := by
        apply hagree a (List.mem_cons_self a t)
        intro hap; rw [hap] at hat; exact hat hm
      rw [List.countP_cons, List.countP_cons, ← ha]
      have h3 := ih hndt hm (fun x hx hxp =>
        hagree x (List.mem_cons.mpr (Or.inr hx)) hxp)
      omega

theorem emptyCount_setCell {g : Grid} (hWF : WF g) {r c : Nat} (hr : r < 9)
    (hc : c < 9) (hcell : cell g r c = none) (n : Nat) :
    emptyCount (setCell g r c (some n)) + 1 = emptyCount g := by
  apply countP_update_mem rowMajor_nodup
    (mem_rowMajor.mpr ⟨hr, hc⟩ : Pos.mk r c ∈ rowMajor)
  · intro p hp hpne
    have : p.row ≠ r ∨ p.col ≠ c := by
      by_contra hcon
      push_neg at hcon
      exact hpne (by cases p; simp_all)
    simp [cell_setCell_ne hWF this]
  · simp [cell_setCell_eq hWF hr hc]
  · simp [hcell]

theorem Extends_setCell {g : Grid} (hWF : WF g) {r c : Nat}
    (hcell : cell g r c = none) (v : Cell) :
    Extends g (setCell g r c v) := by
  intro r' c' w hw
  have hne : r' ≠ r ∨ c' ≠ c := by
    by_contra hcon
    push_neg at hcon
    rw [hcon.1, hcon.2, hcell] at hw
    cases hw
  rw [cell_setCell_ne hWF hne, hw]

theorem tryNums_eq_some {rec : Grid → Option Grid} {g : Grid} {r c : Nat}
    {nums : List Nat} {s : Grid} (h : tryNums rec g r c nums = some s) :
    ∃ n ∈ nums, isValidMove g r c n = true ∧
      rec (setCell g r c (some n)) = some s := by
  induction nums with
  | nil => cases h
  | cons m rest ih =>
    by_cases hv : isValidMove g r c m = true
    · rw [tryNums, if_pos hv] at h
      rcases hrec : rec (setCell g r c (some m)) with _ | s'
      · rw [hrec] at h
        obtain ⟨n, hn, hvn, hs⟩ := ih h
        exact ⟨n, List.mem_cons.mpr (Or.inr hn), hvn, hs⟩
      · rw [hrec] at h
        cases h
        exact ⟨m, List.mem_cons_self m rest, hv, hrec⟩
    · rw [tryNums, if_neg hv] at h
      obtain ⟨n, hn, hvn, hs⟩ := ih h
      exact ⟨n, List.mem_cons.mpr (Or.inr hn), hvn, hs⟩

theorem solveAux_of_findEmpty_none {fuel : Nat} {g : Grid}
    (h : findEmpty g = none) : solveAux fuel g = some g := by
  rw [solveAux, h]

theorem solveAux_zero_of_findEmpty_some {g : Grid} {p : Pos}
    (h : findEmpty g = some p) : solveAux 0 g = none := by
  rw [solveAux, h]

theorem solveAux_succ_of_findEmpty_some {fuel : Nat} {g : Grid} {p : Pos}
    (h : findEmpty g = some p) : solveAux (fuel + 1) g =
      tryNums (solveAux fuel) g p.row p.col (List.range' 1 9) := by
  rw [solveAux, h]

theorem solveAux_some_WF {fuel : Nat} {g s : Grid} (hWF : WF g)
    (h : solveAux fuel g = some s) : WF s := by
  induction fuel generalizing g with
  | zero =>
    rcases hfe : findEmpty g with _ | p
    · rw [solveAux_of_findEmpty_none hfe] at h
      cases h; exact hWF
    · rw [solveAux_zero_of_findEmpty_some hfe] at h; cases h
  | succ fuel ih =>
    rcases hfe : findEmpty g with _ | p
    · rw [solveAux_of_findEmpty_none hfe] at h
      cases h; exact hWF
    · rw [solveAux_succ_of_findEmpty_some hfe] at h
      obtain ⟨n, -, -, hs⟩ := tryNums_eq_some h
      exact ih (WF_setCell hWF _ _ _) hs

theorem solveAux_some_extends {fuel : Nat} {g s : Grid} (hWF : WF g)
    (h : solveAux fuel g = some s) : Extends g s := by
  induction fuel generalizing g with
  | zero =>
    rcases hfe : findEmpty g with _ | p
    · rw [solveAux_of_findEmpty_none hfe] at h
      cases h; exact Extends_refl s
    · rw [solveAux_zero_of_findEmpty_some hfe] at h; cases h
  | succ fuel ih =>
    rcases hfe : findEmpty g with _ | p
    · rw [solveAux_of_findEmpty_none hfe] at h
      cases h; exact Extends_refl s
    · rw [solveAux_succ_of_findEmpty_some hfe] at h
      obtain ⟨n, -, -, hs⟩ := tryNums_eq_some h
      obtain ⟨-, -, hcell⟩ := findEmpty_eq_some hfe
      exact Extends_trans (Extends_setCell hWF hcell _)
        (ih (WF_setCell hWF _ _ _) hs)

theorem solveAux_some_noEmpty {fuel : Nat} {g s : Grid}
    (h : solveAux fuel g = some s) : findEmpty s = none := by
  induction fuel generalizing g with
  | zero =>
    rcases hfe : findEmpty g with _ | p
    · rw [solveAux_of_findEmpty_none hfe] at h
      cases h; exact hfe
    · rw [solveAux_zero_of_findEmpty_some hfe] at h; cases h
  | succ fuel ih =>
    rcases hfe : findEmpty g with _ | p
    · rw [solveAux_of_findEmpty_none hfe] at h
      cases h; exact hfe
    · rw [solveAux_succ_of_findEmpty_some hfe] at h
      obtain ⟨n, -, -, hs⟩ := tryNums_eq_some h
      exact ih hs

/-- Placing a value that passes `isValidMove` on an empty cell of a
duplicate-free grid keeps the grid duplicate-free. -/
theorem Good_setCell {g : Grid} (hWF : WF g) (hG : Good g) {r c n : Nat}
    (hr : r < 9) (hc : c < 9) (hcell : cell g r c = none)
    (hmv : isValidMove g r c n = true) : Good (setCell g r c (some n)) := by
  obtain ⟨hrow, hcol, hbox⟩ := (isValidMove_eq_true_iff g r c n).mp hmv
  obtain ⟨hR, hC, hB⟩ := hG
  have hat : ∀ r' c', cell (setCell g r c (some n)) r' c' =
      if r' = r ∧ c' = c then some n else cell g r' c' := by
    intro r' c'
    by_cases h : r' = r ∧ c' = c
    · rw [if_pos h, h.1, h.2, cell_setCell_eq hWF hr hc]
    · rw [if_neg h, cell_setCell_ne hWF (by tauto)]
  refine ⟨?_, ?_, ?_⟩
  · intro r0 c1 c2 v h0 h1 h2 hne hv1 hv2
    rw [hat] at hv1 hv2
    by_cases e1 : r0 = r ∧ c1 = c
    · rw [if_pos e1] at hv1
      obtain rfl : n = v := Option.some.inj hv1
      have hne2 : ¬(r0 = r ∧ c2 = c) := by
        rintro ⟨-, hcc⟩
        exact hne (e1.2.trans hcc.symm)
      rw [if_neg hne2] at hv2
      have hv2x : cell g r c2 = some n := by rw [← e1.1]; exact hv2
      exact hrow c2 h2 (fun hcc => hne (e1.2.trans hcc.symm)) hv2x
    · rw [if_neg e1] at hv1
      by_cases e2 : r0 = r ∧ c2 = c
      · rw [if_pos e2] at hv2
        obtain rfl : n = v := Option.some.inj hv2
        have hv1x : cell g r c1 = some n := by rw [← e2.1]; exact hv1
        exact hrow c1 h1 (fun hcc => hne (hcc.trans e2.2.symm)) hv1x
      · rw [if_neg e2] at hv2
        exact hR r0 c1 c2 v h0 h1 h2 hne hv1 hv2
  · intro c0 r1 r2 v h0 h1 h2 hne hv1 hv2
    rw [hat] at hv1 hv2
    by_cases e1 : r1 = r ∧ c0 = c
    · rw [if_pos e1] at hv1
      obtain rfl : n = v := Option.some.inj hv1
      have hne2 : ¬(r2 = r ∧ c0 = c) := by
        rintro ⟨hrr, -⟩
        exact hne (e1.1.trans hrr.symm)
      rw [if_neg hne2] at hv2
      have hv2x : cell g r2 c = some n := by rw [← e1.2]; exact hv2
      exact hcol r2 h2 (fun hrr => hne (e1.1.trans hrr.symm)) hv2x
    · rw [if_neg e1] at hv1
      by_cases e2 : r2 = r ∧ c0 = c
      · rw [if_pos e2] at hv2
        obtain rfl : n = v := Option.some.inj hv2
        have hv1x : cell g r1 c = some n := by rw [← e2.2]; exact hv1
        exact hcol r1 h1 (fun hrr => hne (hrr.trans e2.1.symm)) hv1x
      · rw [if_neg e2] at hv2
        exact hC c0 r1 r2 v h0 h1 h2 hne hv1 hv2
  · intro r1 c1 r2 c2 v h1r h1c h2r h2c hne hbr hbc hv1 hv2
    rw [hat] at hv1 hv2
    by_cases e1 : r1 = r ∧ c1 = c
    · rw [if_pos e1] at hv1
      obtain rfl : n = v := Option.some.inj hv1
      have hne2 : ¬(r2 = r ∧ c2 = c) := by
        rintro ⟨hx, hy⟩
        exact hne ⟨e1.1.trans hx.symm, e1.2.trans hy.symm⟩
      rw [if_neg hne2] at hv2
      have hb := hbox (r2 % 3) (c2 % 3) (by omega) (by omega)
      obtain ⟨he1, he2⟩ := e1
      have er : r / 3 * 3 + r2 % 3 = r2 := by omega
      have ec : c / 3 * 3 + c2 % 3 = c2 := by omega
      rw [er, ec] at hb
      exact hb hne2 hv2
    · rw [if_neg e1] at hv1
      by_cases e2 : r2 = r ∧ c2 = c
      · rw [if_pos e2] at hv2
        obtain rfl : n = v := Option.some.inj hv2
        have hb := hbox (r1 % 3) (c1 % 3) (by omega) (by omega)
        obtain ⟨he1, he2⟩ := e2
        have er : r / 3 * 3 + r1 % 3 = r1 := by omega
        have ec : c / 3 * 3 + c1 % 3 = c1 := by omega
        rw [er, ec] at hb
        exact hb e1 hv1
      · rw [if_neg e2] at hv2
        exact hB r1 c1 r2 c2 v h1r h1c h2r h2c hne hbr hbc hv1 hv2

theorem solveAux_some_good {fuel : Nat} {g s : Grid} (hWF : WF g)
    (hG : Good g) (h : solveAux fuel g = some s) : Good s := by
  induction fuel generalizing g with
  | zero =>
    rcases hfe : findEmpty g with _ | p
    · rw [solveAux_of_findEmpty_none hfe] at h
      cases h; exact hG
    · rw [solveAux_zero_of_findEmpty_some hfe] at h; cases h
  | succ fuel ih =>
    rcases hfe : findEmpty g with _ | p
    · rw [solveAux_of_findEmpty_none hfe] at h
      cases h; exact hG
    · rw [solveAux_succ_of_findEmpty_some hfe] at h
      obtain ⟨n, -, hvn, hs⟩ := tryNums_eq_some h
      obtain ⟨hpr, hpc, hcell⟩ := findEmpty_eq_some hfe
      exact ih (WF_setCell hWF _ _ _)
        (Good_setCell hWF hG hpr hpc hcell hvn) hs

/-- A completed, duplicate-free extension of `g` certifies any of its own
values as a valid move in `g`. -/
theorem validMove_of_solution {g s : Grid} {r c v : Nat} (hG : Good s)
    (hext : Extends g s) (hcell : cell g r c = none) (hr : r < 9) (hc : c < 9)
    (hs : cell s r c = some v) : isValidMove g r c v = true := by
  obtain ⟨hR, hC, hB⟩ := hG
  rw [isValidMove_eq_true_iff]
  refine ⟨?_, ?_, ?_⟩
  · intro c' hc' hne hv
    exact hR r c c' v hr hc hc' (Ne.symm hne) hs (hext r c' v hv)
  · intro r' hr' hne hv
    exact hC c r r' v hc hr hr' (Ne.symm hne) hs (hext r' c v hv)
  · intro i j hi hj hne hv
    refine hB r c (r / 3 * 3 + i) (c / 3 * 3 + j) v hr hc (by omega) (by omega)
      ?_ (by omega) (by omega) hs (hext _ _ v hv)
    rintro ⟨h1, h2⟩
    exact hne ⟨h1.symm, h2.symm⟩

/-- A full solution for `g`: well-formed, duplicate-free, extends `g`, and
every cell holds a value in `[1,9]`. -/
def IsSolutionFor (s g : Grid) : Prop :=
  WF s ∧ Good s ∧ Extends g s ∧
    ∀ r c, r < 9 → c < 9 → ∃ v, 1 ≤ v ∧ v ≤ 9 ∧ cell s r c = some v

theorem tryNums_isSome {rec : Grid → Option Grid} {g : Grid} {r c : Nat}
    {nums : List Nat} (h : ∃ n ∈ nums, isValidMove g r c n = true ∧
      (rec (setCell g r c (some n))).isSome) :
    (tryNums rec g r c nums).isSome := by
  induction nums with
  | nil => obtain ⟨n, hn, -⟩ := h; cases hn
  | cons m rest ih =>
    obtain ⟨n, hn, hvn, hrec⟩ := h
    by_cases hvm : isValidMove g r c m = true
    · rw [tryNums, if_pos hvm]
      rcases hm : rec (setCell g r c (some m)) with _ | s
      · rcases List.mem_cons.mp hn with rfl | hn2
        · rw [hm] at hrec; cases hrec
        · exact ih ⟨n, hn2, hvn, hrec⟩
      · simp
    · rw [tryNums, if_neg hvm]
      rcases List.mem_cons.mp hn with rfl | hn2
      · exact absurd hvn hvm
      · exact ih ⟨n, hn2, hvn, hrec⟩

/-- Completeness of the backtracking search: with enough fuel, a grid that
has a full solution is solved. -/
theorem solveAux_complete {fuel : Nat} {g : Grid} (hWF : WF g)
    (hfuel : emptyCount g ≤ fuel) (h : ∃ s, IsSolutionFor s g) :
    (solveAux fuel g).isSome := by
  induction fuel generalizing g with
  | zero =>
    have hfe : findEmpty g = none :=
      (emptyCount_eq_zero_iff g).mp (by omega)
    rw [solveAux_of_findEmpty_none hfe]
    simp
  | succ fuel ih =>
    rcases hfe : findEmpty g with _ | p
    · rw [solveAux_of_findEmpty_none hfe]
      simp
    · rw [solveAux_succ_of_findEmpty_some hfe]
      obtain ⟨hpr, hpc, hcell⟩ := findEmpty_eq_some hfe
      obtain ⟨s, hsWF, hsG, hsE, hsF⟩ := h
      obtain ⟨v, hv1, hv9, hsv⟩ := hsF p.row p.col hpr hpc
      apply tryNums_isSome
      refine ⟨v, ?_, validMove_of_solution hsG hsE hcell hpr hpc hsv, ?_⟩
      · have : v = 1 + (v - 1) := by omega
        rw [this]
        exact List.mem_range'.mpr ⟨v - 1, by omega, by omega⟩
      · apply ih (WF_setCell hWF _ _ _)
        · have := emptyCount_setCell hWF hpr hpc hcell v
          omega
        · refine ⟨s, hsWF, hsG, ?_, hsF⟩
          intro r' c' w hw
          by_cases hp : r' = p.row ∧ c' = p.col
          · rw [hp.1, hp.2, cell_setCell_eq hWF hpr hpc] at hw
            cases hw
            exact hp.1 ▸ hp.2 ▸ hsv
          · rw [cell_setCell_ne hWF (by tauto)] at hw
            exact hsE r' c' w hw


/-! ### Completion and monotonicity -/

theorem isComplete_eq_true_of {g : Grid} (hne : findEmpty g = none)
    (hG : Good g) : isComplete g = true := by
  rw [isComplete, Bool.and_eq_true]
  constructor
  · rw [List.all_eq_true]
    intro r hr
    rw [List.all_eq_true]
    intro c hc
    rw [decide_eq_true_eq]
    exact (findEmpty_eq_none_iff g).mp hne (Pos.mk r c)
      (mem_rowMajor.mpr ⟨List.mem_range.mp hr, List.mem_range.mp hc⟩)
  · exact (isValid_iff_Good g).mpr hG

/-- Duplicate-freedom is inherited by sub-assignments. -/
theorem Good_mono {g s : Grid} (hext : Extends g s) (hG : Good s) : Good g := by
  obtain ⟨hR, hC, hB⟩ := hG
  refine ⟨?_, ?_, ?_⟩
  · intro r c1 c2 v h0 h1 h2 hne hv1 hv2
    exact hR r c1 c2 v h0 h1 h2 hne (hext r c1 v hv1) (hext r c2 v hv2)
  · intro c r1 r2 v h0 h1 h2 hne hv1 hv2
    exact hC c r1 r2 v h0 h1 h2 hne (hext r1 c v hv1) (hext r2 c v hv2)
  · intro r1 c1 r2 c2 v h1r h1c h2r h2c hne hbr hbc hv1 hv2
    exact hB r1 c1 r2 c2 v h1r h1c h2r h2c hne hbr hbc
      (hext r1 c1 v hv1) (hext r2 c2 v hv2)

/-! ### Concrete grids used as witnesses and counterexamples -/

/-- The fully filled grid holding 1 in every cell. -/
def allOnesGrid : Grid := List.replicate 9 (List.replicate 9 (some 1))

/-- A concrete completed valid Sudoku grid. -/
def sampleSolved : Grid :=
  [[some 1, some 2, some 3, some 4, some 5, some 6, some 7, some 8, some 9],
   [some 4, some 5, some 6, some 7, some 8, some 9, some 1, some 2, some 3],
   [some 7, some 8, some 9, some 1, some 2, some 3, some 4, some 5, some 6],
   [some 2, some 3, some 4, some 5, some 6, some 7, some 8, some 9, some 1],
   [some 5, some 6, some 7, some 8, some 9, some 1, some 2, some 3, some 4],
   [some 8, some 9, some 1, some 2, some 3, some 4, some 5, some 6, some 7],
   [some 3, some 4, some 5, some 6, some 7, some 8, some 9, some 1, some 2],
   [some 6, some 7, some 8, some 9, some 1, some 2, some 3, some 4, some 5],
   [some 9, some 1, some 2, some 3, some 4, some 5, some 6, some 7, some 8]]

/-! ### Claim C1 -/

/-- C1, counterexample: the all-ones grid is one the backtracking search
completes (`solve` returns it unchanged, as it has no empty cell), yet the
result fails `isComplete`, because `isComplete` also demands `isValid`.  So
"solve(g) returns s with is_complete(s)" is false for this solvable-by-search
grid. -/
theorem C1_counterexample :
    solve allOnesGrid = some allOnesGrid ∧ isComplete allOnesGrid = false := by
  constructor
  · decide
  · decide

/-- C1 (amended): for every *conflict-free* grid the search completes
(`isValid g = true` and `solve g = some s`), every cell filled in `g` holds
the same value in `s`, and `isComplete s` is true. -/
theorem C1_solve_extends_and_completes (g s : Grid) (hWF : WF g)
    (hvalid : isValid g = true) (h : solve g = some s) :
    (∀ r c v, cell g r c = some v → cell s r c = some v) ∧
      isComplete s = true := by
  rw [solve, copyGrid_eq] at h
  refine ⟨solveAux_some_extends hWF h, ?_⟩
  exact isComplete_eq_true_of (solveAux_some_noEmpty h)
    (solveAux_some_good hWF ((isValid_iff_Good g).mp hvalid) h)

/-- C1, witness: the amended theorem applied to a concrete valid grid. -/
theorem C1_witness :
    WF sampleSolved ∧ isValid sampleSolved = true ∧
      ∃ s, solve sampleSolved = some s ∧ isComplete s = true := by
  refine ⟨by decide, by decide, sampleSolved, by decide, ?_⟩
  exact (C1_solve_extends_and_completes sampleSolved sampleSolved (by decide)
    (by decide) (by decide)).2

/-! ### Claim C2 -/

/-- C2: `isValidMove(g,r,c,v)` returns false iff `v` occurs in row `r`, in
column `c`, or in the box of `(r,c)` (box index `(r/3)*3 + (c/3)`), at some
position other than `(r,c)` itself. -/
theorem C2_isValidMove_false_iff (g : Grid) (r c v : Nat) (hr : r < 9)
    (hc : c < 9) (hv1 : 1 ≤ v) (hv9 : v ≤ 9) :
    isValidMove g r c v = false ↔
      (∃ c2, c2 < 9 ∧ c2 ≠ c ∧ cell g r c2 = some v) ∨
      (∃ r2, r2 < 9 ∧ r2 ≠ r ∧ cell g r2 c = some v) ∨
      (∃ r2 c2, r2 < 9 ∧ c2 < 9 ∧ boxIndex r2 c2 = boxIndex r c ∧
        ¬(r2 = r ∧ c2 = c) ∧ cell g r2 c2 = some v) := by
  constructor
  · intro hfalse
    have hnot : ¬(isValidMove g r c v = true) := by simp [hfalse]
    rw [isValidMove_eq_true_iff] at hnot
    push_neg at hnot
    by_cases hrow : ∀ c2, c2 < 9 → c2 ≠ c → cell g r c2 ≠ some v
    · by_cases hcol : ∀ r2, r2 < 9 → r2 ≠ r → cell g r2 c ≠ some v
      · obtain ⟨i, j, hi, hj, hne, hcell⟩ := hnot hrow hcol
        refine Or.inr (Or.inr ⟨r / 3 * 3 + i, c / 3 * 3 + j, by omega,
          by omega, ?_, ?_, hcell⟩)
        · unfold boxIndex
          omega
        · intro hcon
          exact hne hcon.1 hcon.2
      · push_neg at hcol
        obtain ⟨r2, h2, hne, hcell⟩ := hcol
        exact Or.inr (Or.inl ⟨r2, h2, hne, hcell⟩)
    · push_neg at hrow
      obtain ⟨c2, h2, hne, hcell⟩ := hrow
      exact Or.inl ⟨c2, h2, hne, hcell⟩
  · intro hocc
    rw [← Bool.not_eq_true, isValidMove_eq_true_iff]
    rintro ⟨hrow, hcol, hbox⟩
    rcases hocc with ⟨c2, h2, hne, hcell⟩ | ⟨r2, h2, hne, hcell⟩ |
      ⟨r2, c2, h2r, h2c, hbi, hne, hcell⟩
    · exact hrow c2 h2 hne hcell
    · exact hcol r2 h2 hne hcell
    · have hdiv : r2 / 3 = r / 3 ∧ c2 / 3 = c / 3 := by
        unfold boxIndex at hbi
        omega
      have := hbox (r2 % 3) (c2 % 3) (by omega) (by omega)
      have er : r / 3 * 3 + r2 % 3 = r2 := by omega
      have ec : c / 3 * 3 + c2 % 3 = c2 := by omega
      rw [er, ec] at this
      exact this hne hcell

/-- The spec's concrete scenario grid: row 0 = `[5,3,4,6,7,8,9,1,2]`, all
other cells empty. -/
def sampleRow0 : Grid :=
  [some 5, some 3, some 4, some 6, some 7, some 8, some 9, some 1, some 2] ::
    List.replicate 8 (List.replicate 9 (none : Cell))

/-- C2, witness: on the scenario grid, placing 5 at `(1,0)` is rejected, and
the characterization confirms it (5 sits in box 0 at `(0,0)`). -/
theorem C2_witness :
    (1 : Nat) < 9 ∧ (0 : Nat) < 9 ∧ (1 : Nat) ≤ 5 ∧ (5 : Nat) ≤ 9 ∧
      (isValidMove sampleRow0 1 0 5 = false ↔
      (∃ c2, c2 < 9 ∧ c2 ≠ 0 ∧ cell sampleRow0 1 c2 = some 5) ∨
      (∃ r2, r2 < 9 ∧ r2 ≠ 1 ∧ cell sampleRow0 r2 0 = some 5) ∨
      (∃ r2 c2, r2 < 9 ∧ c2 < 9 ∧ boxIndex r2 c2 = boxIndex 1 0 ∧
        ¬(r2 = 1 ∧ c2 = 0) ∧ cell sampleRow0 r2 c2 = some 5)) := by
  exact ⟨by decide, by decide, by decide, by decide,
    C2_isValidMove_false_iff sampleRow0 1 0 5 (by decide) (by decide)
      (by decide) (by decide)⟩

/-! ### Claim C5 -/

/-- C5, counterexample: the all-ones grid contains conflicts
(`isValid = false`), yet `solve` does not return `none` -- with no empty
cell, the base case of `backtrack` fires immediately and the conflicted grid
itself is returned. -/
theorem C5_counterexample :
    isValid allOnesGrid = false ∧ solve allOnesGrid ≠ none := by
  constructor
  · decide
  · decide

/-- C5 (amended): on a grid that already contains a conflict, `solve` never
produces a valid solution: it returns `none`, or a grid that still fails
`isValid` (and so fails `isComplete`).  It does **not** always return
`none`. -/
theorem C5_solve_invalid_never_valid (g s : Grid) (hWF : WF g)
    (hinvalid : isValid g = false) (h : solve g = some s) :
    isValid s = false ∧ isComplete s = false := by
  rw [solve, copyGrid_eq] at h
  have hext := solveAux_some_extends hWF h
  have hsv : isValid s = false := by
    by_contra hcon
    rw [Bool.not_eq_false] at hcon
    have : isValid g = true :=
      (isValid_iff_Good g).mpr (Good_mono hext ((isValid_iff_Good s).mp hcon))
    rw [this] at hinvalid
    cases hinvalid
  refine ⟨hsv, ?_⟩
  rw [isComplete, hsv, Bool.and_false]

/-- C5, witness: the amended theorem applied to the all-ones grid. -/
theorem C5_witness :
    WF allOnesGrid ∧ isValid allOnesGrid = false ∧
      ∃ s, solve allOnesGrid = some s ∧ isValid s = false ∧
        isComplete s = false := by
  refine ⟨by decide, by decide, allOnesGrid, by decide, ?_⟩
  exact C5_solve_invalid_never_valid allOnesGrid allOnesGrid (by decide)
    (by decide) (by decide)


/-! ### Claim C6 -/

/-- C6, counterexample: on the all-empty grid `get_hint` does **not** return
`none`.  Every empty cell has 9 candidates, and since `9 < 10` (the initial
`minPossibilities`), the best-effort branch fires at the very first cell. -/
theorem C6_counterexample : getHint createEmptyGrid ≠ none := by decide

/-- C6 (amended): on the all-empty grid, the fewest-candidates fallback fires
on the first scanned cell: `get_hint` returns the hint `(0, 0)` with value 1
(the first of the 9 candidates of that cell), not `none`. -/
theorem C6_empty_grid_hint :
    (getHint createEmptyGrid).map (fun h => (h.row, h.col, h.value)) =
      some (0, 0, 1) ∧
      (possibilitiesAt createEmptyGrid 0 0).length = 9 := by
  constructor
  · decide
  · decide

/-! ### Claim C9: the aliasing frame property of `copyGrid` -/

/-- Stores agreeing on every row array below index `n`. -/
def AgreeBelow (n : Nat) (st1 st2 : Store) : Prop :=
  ∀ k, k < n → st1.getD k [] = st2.getD k []

theorem copyGridS_refs_ge {st : Store} {gr : GridRef} {ref : Nat}
    (h : ref ∈ (copyGridS st gr).2) : st.length ≤ ref := by
  simp only [copyGridS, List.mem_map, List.mem_range] at h
  obtain ⟨i, -, rfl⟩ := h
  omega

theorem copyGridS_agree (st : Store) (gr : GridRef) :
    AgreeBelow st.length st (copyGridS st gr).1 := by
  intro k hk
  simp only [copyGridS]
  rw [List.getD_eq_getElem?_getD, List.getD_eq_getElem?_getD,
    List.getElem?_append, if_pos hk]

theorem writeCellS_agree {n : Nat} {st1 st2 : Store} {gr2 : GridRef}
    (hge : ∀ ref ∈ gr2, n ≤ ref) (hagree : AgreeBelow n st1 st2) {r : Nat}
    (hr : r < gr2.length) (c : Nat) (v : Cell) :
    AgreeBelow n st1 (writeCellS st2 gr2 r c v) := by
  intro k hk
  rw [writeCellS]
  have href : n ≤ gr2.getD r 0 :=
    hge _ (List.getD_eq_getElem _ _ hr ▸ List.getElem_mem hr)
  rw [getD_set_ne _ (by omega)]
  exact hagree k hk

theorem writesS_agree {n : Nat} {st1 st2 : Store} {gr2 : GridRef}
    (hge : ∀ ref ∈ gr2, n ≤ ref) (hagree : AgreeBelow n st1 st2)
    {ws : List (Nat × Nat × Cell)} (hws : ∀ w ∈ ws, w.1 < gr2.length) :
    AgreeBelow n st1 (writesS gr2 st2 ws) := by
  induction ws generalizing st2 with
  | nil => exact hagree
  | cons w rest ih =>
    exact ih (writeCellS_agree hge hagree
        (hws w (List.mem_cons_self w rest)) w.2.1 w.2.2)
      (fun x hx => hws x (List.mem_cons.mpr (Or.inr hx)))

/-- C9: `copyGrid` is a deep copy whose rows do not alias the original's
rows; consequently, any sequence of cell writes performed through the copy
(as the `backtrack` recursion inside `solve` performs on its private
`gridCopy`) leaves every cell read through the caller's grid reference
exactly as it was before. -/
theorem C9_copy_writes_frame (st : Store) (gr : GridRef)
    (hvalid : ∀ ref ∈ gr, ref < st.length) (hlen : gr.length = 9)
    (ws : List (Nat × Nat × Cell)) (hws : ∀ w ∈ ws, w.1 < 9)
    (r c : Nat) (hr : r < 9) :
    readCellS (writesS (copyGridS st gr).2 (copyGridS st gr).1 ws) gr r c =
      readCellS st gr r c := by
  have hagree : AgreeBelow st.length st
      (writesS (copyGridS st gr).2 (copyGridS st gr).1 ws) := by
    apply writesS_agree (fun ref h => copyGridS_refs_ge h)
      (copyGridS_agree st gr)
    intro w hw
    simp only [copyGridS, List.length_map, List.length_range]
    rw [hlen]
    exact hws w hw
  have hrl : r < gr.length := by omega
  have href : gr.getD r 0 < st.length :=
    hvalid _ (List.getD_eq_getElem _ _ hrl ▸ List.getElem_mem hrl)
  rw [readCellS, readCellS, hagree _ href]

/-- C9, witness: a concrete store of nine empty rows, the identity grid
reference, and one write through the copy. -/
theorem C9_witness :
    (∀ ref ∈ ([0, 1, 2, 3, 4, 5, 6, 7, 8] : GridRef),
      ref < (createEmptyGrid : Store).length) ∧
    readCellS
      (writesS (copyGridS createEmptyGrid [0, 1, 2, 3, 4, 5, 6, 7, 8]).2
        (copyGridS createEmptyGrid [0, 1, 2, 3, 4, 5, 6, 7, 8]).1
        [(0, 0, some 5)])
      [0, 1, 2, 3, 4, 5, 6, 7, 8] 0 0 =
      readCellS createEmptyGrid [0, 1, 2, 3, 4, 5, 6, 7, 8] 0 0 := by
  refine ⟨by decide, ?_⟩
  exact C9_copy_writes_frame createEmptyGrid [0, 1, 2, 3, 4, 5, 6, 7, 8]
    (by decide) (by decide) [(0, 0, some 5)] (by decide) 0 0 (by decide)


/-! ### Propagation-loop lemmas (solver mode) -/

/-- The firing condition of one `cellStep`: an empty, single-candidate,
non-user-authored cell. -/
def fires (u : Finset Pos) (g : Grid) (p : Pos) : Prop :=
  cell g p.row p.col = none ∧ (possibilitiesAt g p.row p.col).length = 1 ∧
    p ∉ u

instance (u : Finset Pos) (g : Grid) (p : Pos) : Decidable (fires u g p) := by
  unfold fires; infer_instance

theorem cellStep_of_fires {u : Finset Pos} {st : Grid × Finset Pos × Bool}
    {p : Pos} (hf : fires u st.1 p) :
    cellStep u st p = (setCell st.1 p.row p.col
      (some ((possibilitiesAt st.1 p.row p.col).headD 0)),
      insert p st.2.1, true) := by
  obtain ⟨h1, h2, h3⟩ := hf
  simp [cellStep, h1, h2, h3]

theorem cellStep_of_not_fires {u : Finset Pos} {st : Grid × Finset Pos × Bool}
    {p : Pos} (hf : ¬fires u st.1 p) : cellStep u st p = st := by
  by_cases h1 : cell st.1 p.row p.col = none
  · by_cases h2 : (possibilitiesAt st.1 p.row p.col).length = 1
    · have h3 : p ∈ u := by
        by_contra hc
        exact hf ⟨h1, h2, hc⟩
      simp [cellStep, h1, h2, h3]
    · simp [cellStep, h1, h2]
  · simp [cellStep, h1]

theorem foldl_cellStep_main (u : Finset Pos) :
    ∀ (l : List Pos), (∀ p ∈ l, p.row < 9 ∧ p.col < 9) →
    ∀ st : Grid × Finset Pos × Bool, WF st.1 →
      WF (l.foldl (cellStep u) st).1 ∧
      ((l.foldl (cellStep u) st) = st ∨
        ((l.foldl (cellStep u) st).2.2 = true ∧
          emptyCount (l.foldl (cellStep u) st).1 < emptyCount st.1)) := by
  intro l
  induction l with
  | nil => intro hl st hWF; exact ⟨hWF, Or.inl rfl⟩
  | cons p t ih =>
    intro hl st hWF
    obtain ⟨hp9, hc9⟩ := hl p (List.mem_cons_self p t)
    have hlt : ∀ q ∈ t, q.row < 9 ∧ q.col < 9 :=
      fun q hq => hl q (List.mem_cons.mpr (Or.inr hq))
    by_cases hf : fires u st.1 p
    · rw [List.foldl_cons, cellStep_of_fires hf]
      have hWF1 : WF (setCell st.1 p.row p.col
          (some ((possibilitiesAt st.1 p.row p.col).headD 0))) :=
        WF_setCell hWF _ _ _
      have hdec := emptyCount_setCell hWF hp9 hc9 hf.1
        ((possibilitiesAt st.1 p.row p.col).headD 0)
      obtain ⟨hWF2, hcase⟩ := ih hlt (setCell st.1 p.row p.col
        (some ((possibilitiesAt st.1 p.row p.col).headD 0)),
        insert p st.2.1, true) hWF1
      have hdec2 : emptyCount ((setCell st.1 p.row p.col
          (some ((possibilitiesAt st.1 p.row p.col).headD 0)),
          insert p st.2.1, true) : Grid × Finset Pos × Bool).1 + 1 =
            emptyCount st.1 := hdec
      refine ⟨hWF2, Or.inr ?_⟩
      rcases hcase with heq | ⟨hflag, hlt2⟩
      · rw [heq]
        exact ⟨rfl, by omega⟩
      · exact ⟨hflag, by omega⟩
    · rw [List.foldl_cons, cellStep_of_not_fires hf]
      exact ih hlt st hWF

theorem foldl_cellStep_flag_mono (u : Finset Pos) (l : List Pos)
    (st : Grid × Finset Pos × Bool) (h : st.2.2 = true) :
    (l.foldl (cellStep u) st).2.2 = true := by
  induction l generalizing st with
  | nil => exact h
  | cons p t ih =>
    rw [List.foldl_cons]
    by_cases hf : fires u st.1 p
    · rw [cellStep_of_fires hf]
      exact ih _ rfl
    · rw [cellStep_of_not_fires hf]
      exact ih st h

theorem foldl_cellStep_false (u : Finset Pos) (l : List Pos)
    (st : Grid × Finset Pos × Bool)
    (h : (l.foldl (cellStep u) st).2.2 = false) :
    ∀ p ∈ l, ¬fires u st.1 p := by
  induction l generalizing st with
  | nil => intro p hp; cases hp
  | cons p t ih =>
    intro q hq
    by_cases hf : fires u st.1 p
    · rw [List.foldl_cons, cellStep_of_fires hf] at h
      rw [foldl_cellStep_flag_mono u t _ rfl] at h
      cases h
    · rw [List.foldl_cons, cellStep_of_not_fires hf] at h
      rcases List.mem_cons.mp hq with rfl | hq2
      · exact hf
      · exact ih st h q hq2

theorem foldl_cellStep_extends (u : Finset Pos) :
    ∀ (l : List Pos), (∀ p ∈ l, p.row < 9 ∧ p.col < 9) →
    ∀ st : Grid × Finset Pos × Bool, WF st.1 →
      Extends st.1 (l.foldl (cellStep u) st).1 := by
  intro l
  induction l with
  | nil => intro hl st hWF; exact Extends_refl _
  | cons p t ih =>
    intro hl st hWF
    have hlt : ∀ q ∈ t, q.row < 9 ∧ q.col < 9 :=
      fun q hq => hl q (List.mem_cons.mpr (Or.inr hq))
    by_cases hf : fires u st.1 p
    · rw [List.foldl_cons, cellStep_of_fires hf]
      refine Extends_trans (Extends_setCell hWF hf.1
        (some ((possibilitiesAt st.1 p.row p.col).headD 0))) ?_
      exact ih hlt (setCell st.1 p.row p.col
        (some ((possibilitiesAt st.1 p.row p.col).headD 0)),
        insert p st.2.1, true) (WF_setCell hWF _ _ _)
    · rw [List.foldl_cons, cellStep_of_not_fires hf]
      exact ih hlt st hWF

theorem rowMajor_bounds : ∀ p ∈ rowMajor, p.row < 9 ∧ p.col < 9 :=
  fun p hp => mem_rowMajor.mp hp

/-- Running the `while` loop with more fuel than empty cells reaches the
real fixed point: the result is stable under extra fuel, extends the start
grid, and no non-user empty cell with a single candidate remains. -/
theorem propagateLoop_fixed (u : Finset Pos) :
    ∀ (fuel : Nat) (g : Grid) (ded : Finset Pos), WF g →
      emptyCount g < fuel →
      WF (propagateLoop u g ded fuel).1 ∧
      Extends g (propagateLoop u g ded fuel).1 ∧
      (∀ p ∈ rowMajor, ¬fires u (propagateLoop u g ded fuel).1 p) ∧
      (∀ fuel2, fuel ≤ fuel2 →
        propagateLoop u g ded fuel2 = propagateLoop u g ded fuel) := by
  intro fuel
  induction fuel with
  | zero => intro g ded hWF hfuel; omega
  | succ fuel ih =>
    intro g ded hWF hfuel
    obtain ⟨hWF2, hcase⟩ :=
      foldl_cellStep_main u rowMajor rowMajor_bounds (g, ded, false) hWF
    rcases hcase with heq | ⟨hflag, hdec⟩
    · have hflag : (passOnce u g ded).2.2 = false := by
        rw [passOnce, heq]
      have hres : propagateLoop u g ded (fuel + 1) =
          ((passOnce u g ded).1, (passOnce u g ded).2.1) := by
        rw [propagateLoop, if_neg (by rw [hflag]; exact Bool.false_ne_true)]
      have hgrid : (passOnce u g ded).1 = g := by
        rw [passOnce, heq]
      refine ⟨by rw [hres, hgrid]; exact hWF, ?_, ?_, ?_⟩
      · rw [hres, hgrid]
        exact Extends_refl g
      · intro p hp
        rw [hres, hgrid]
        exact foldl_cellStep_false u rowMajor (g, ded, false) (by
          rw [← passOnce]; exact hflag) p hp
      · intro fuel2 hfuel2
        rcases fuel2 with _ | fuel2
        · omega
        · rw [hres, propagateLoop,
            if_neg (by rw [hflag]; exact Bool.false_ne_true)]
    · have hfire : (passOnce u g ded).2.2 = true := by
        rw [passOnce]; exact hflag
      have hdec2 : emptyCount (passOnce u g ded).1 < emptyCount g := by
        rw [passOnce]; exact hdec
      have hWF3 : WF (passOnce u g ded).1 := by
        rw [passOnce]; exact hWF2
      have hres : propagateLoop u g ded (fuel + 1) =
          propagateLoop u (passOnce u g ded).1 (passOnce u g ded).2.1 fuel := by
        rw [propagateLoop, if_pos hfire]
      obtain ⟨ihWF, ihext, ihfix, ihstable⟩ :=
        ih (passOnce u g ded).1 (passOnce u g ded).2.1 hWF3 (by omega)
      have hext0 : Extends g (passOnce u g ded).1 := by
        rw [passOnce]
        exact foldl_cellStep_extends u rowMajor rowMajor_bounds
          (g, ded, false) hWF
      refine ⟨by rw [hres]; exact ihWF, ?_, ?_, ?_⟩
      · rw [hres]
        exact Extends_trans hext0 ihext
      · intro p hp
        rw [hres]
        exact ihfix p hp
      · intro fuel2 hfuel2
        rcases fuel2 with _ | fuel2
        · omega
        · rw [hres, propagateLoop, if_pos hfire, ihstable fuel2 (by omega)]

/-- Membership in the `userCells` set built at the start of
`updateAutoSolvedCells`. -/
theorem mem_userCellsOf {g : Grid} {auto : Finset Pos} {p : Pos} :
    p ∈ userCellsOf g auto ↔
      p ∈ rowMajor ∧ cell g p.row p.col ≠ none ∧ p ∉ auto := by
  have hgen : ∀ (l : List Pos) (s0 : Finset Pos),
      p ∈ l.foldl (fun s q => if cell g q.row q.col ≠ none ∧ q ∉ auto
        then insert q s else s) s0 ↔
      p ∈ s0 ∨ (p ∈ l ∧ cell g p.row p.col ≠ none ∧ p ∉ auto) := by
    intro l
    induction l with
    | nil => intro s0; simp
    | cons q t ih =>
      intro s0
      rw [List.foldl_cons]
      by_cases hq : cell g q.row q.col ≠ none ∧ q ∉ auto
      · rw [if_pos hq, ih]
        constructor
        · rintro (hmem | hrest)
          · rcases Finset.mem_insert.mp hmem with rfl | hs0
            · exact Or.inr ⟨List.mem_cons_self p t, hq⟩
            · exact Or.inl hs0
          · exact Or.inr ⟨List.mem_cons.mpr (Or.inr hrest.1), hrest.2⟩
        · rintro (hs0 | ⟨hmem, hcond⟩)
          · exact Or.inl (Finset.mem_insert.mpr (Or.inr hs0))
          · rcases List.mem_cons.mp hmem with rfl | ht
            · exact Or.inl (Finset.mem_insert.mpr (Or.inl rfl))
            · exact Or.inr ⟨ht, hcond⟩
      · rw [if_neg hq, ih]
        constructor
        · rintro (hs0 | hrest)
          · exact Or.inl hs0
          · exact Or.inr ⟨List.mem_cons.mpr (Or.inr hrest.1), hrest.2⟩
        · rintro (hs0 | ⟨hmem, hcond⟩)
          · exact Or.inl hs0
          · rcases List.mem_cons.mp hmem with rfl | ht
            · exact absurd hcond hq
            · exact Or.inr ⟨ht, hcond⟩
  rw [userCellsOf, hgen]
  simp


/-! ### Claim C8 -/

/-- C8: the naked-single propagation loop of `updateAutoSolvedCells`
terminates -- every pass that continues the loop fills at least one empty
cell, so running it with fuel 82 (81 filling passes plus one final quiet
pass) is already stable under any extra fuel -- and the grid it returns is a
fixed point: no empty cell of the returned grid has exactly one valid
candidate. -/
theorem C8_propagation_terminates_fixed_point (g : Grid) (auto : Finset Pos)
    (hWF : WF g) :
    (∀ fuel, 82 ≤ fuel →
      propagateLoop (userCellsOf g auto) (copyGrid g) ∅ fuel =
        propagateLoop (userCellsOf g auto) (copyGrid g) ∅ 82) ∧
    (∀ r c, r < 9 → c < 9 →
      cell (updateAutoSolvedCells g auto).1 r c = none →
      (possibilitiesAt (updateAutoSolvedCells g auto).1 r c).length ≠ 1) := by
  have hcopy : copyGrid g = g := copyGrid_eq g
  have hlt : emptyCount g < 82 := by
    have := emptyCount_le g
    omega
  obtain ⟨hWFr, hext, hfix, hstable⟩ :=
    propagateLoop_fixed (userCellsOf g auto) 82 g ∅ hWF hlt
  constructor
  · intro fuel hf
    rw [hcopy]
    exact hstable fuel hf
  · intro r c hr hc hnone hlen
    have hres : (updateAutoSolvedCells g auto).1 =
        (propagateLoop (userCellsOf g auto) g ∅ 82).1 := by
      rw [updateAutoSolvedCells, hcopy]
    rw [hres] at hnone hlen
    have hnf := hfix (Pos.mk r c) (mem_rowMajor.mpr ⟨hr, hc⟩)
    have hu : Pos.mk r c ∈ userCellsOf g auto := by
      by_contra hc2
      exact hnf ⟨hnone, hlen, hc2⟩
    have hfill := (mem_userCellsOf.mp hu).2.1
    rcases hc3 : cell g r c with _ | v
    · exact hfill hc3
    · have := hext r c v hc3
      rw [hnone] at this
      cases this

/-- C8, witness: the theorem applied to a concrete grid with no previous
deduced set. -/
theorem C8_witness :
    WF sampleSolved ∧
      ((∀ fuel, 82 ≤ fuel →
        propagateLoop (userCellsOf sampleSolved ∅) (copyGrid sampleSolved) ∅
            fuel =
          propagateLoop (userCellsOf sampleSolved ∅) (copyGrid sampleSolved) ∅
            82) ∧
      (∀ r c, r < 9 → c < 9 →
        cell (updateAutoSolvedCells sampleSolved ∅).1 r c = none →
        (possibilitiesAt (updateAutoSolvedCells sampleSolved ∅).1 r c).length
          ≠ 1)) :=
  ⟨by decide, C8_propagation_terminates_fixed_point sampleSolved ∅ (by decide)⟩

/-! ### Claim C4 -/

/-- C4, counterexample: two previously-deduced sets that identify the same
user-authored coordinates (on the all-empty grid both identify none) can
produce different new deduced sets: the stale key `(0,0)` of `d2` survives
the update (lines 95-100 carry previous keys over), so deduced-set
membership is *not* a function of (grid, user-authored coordinates) only. -/
theorem C4_counterexample :
    userCellsOf createEmptyGrid ∅ =
        userCellsOf createEmptyGrid {Pos.mk 0 0} ∧
      (updateAutoSolvedCells createEmptyGrid ∅).2 ≠
        (updateAutoSolvedCells createEmptyGrid {Pos.mk 0 0}).2 := by
  constructor
  · decide
  · decide

/-- C4 (amended): the resulting *grid* of the propagation step is a function
of (grid, user-authored coordinates) alone; the full deduced set is such a
function only when the previous deduced sets hold nothing but coordinates of
filled cells -- with stale empty-cell keys it is not (see the
counterexample). -/
theorem C4_deduced_function_of_user_coords (g : Grid) (d1 d2 : Finset Pos)
    (hWF : WF g) (huser : userCellsOf g d1 = userCellsOf g d2) :
    (updateAutoSolvedCells g d1).1 = (updateAutoSolvedCells g d2).1 ∧
    ((∀ p ∈ d1, cell g p.row p.col ≠ none) →
     (∀ p ∈ d2, cell g p.row p.col ≠ none) →
      updateAutoSolvedCells g d1 = updateAutoSolvedCells g d2) := by
  constructor
  · have h1 : (updateAutoSolvedCells g d1).1 =
        (propagateLoop (userCellsOf g d1) (copyGrid g) ∅ 82).1 := by
      rw [updateAutoSolvedCells]
    have h2 : (updateAutoSolvedCells g d2).1 =
        (propagateLoop (userCellsOf g d2) (copyGrid g) ∅ 82).1 := by
      rw [updateAutoSolvedCells]
    rw [h1, h2, huser]
  · intro hf1 hf2
    have hd : d1 = d2 := by
      apply Finset.ext
      intro p
      by_cases hcell : cell g p.row p.col = none
      · constructor
        · intro hp
          exact absurd hcell (hf1 p hp)
        · intro hp
          exact absurd hcell (hf2 p hp)
      · have hrange : p.row < 9 ∧ p.col < 9 := by
          rcases hc3 : cell g p.row p.col with _ | v
          · exact absurd hc3 hcell
          · exact cell_some_range hWF hc3
        have hmem : p ∈ rowMajor := mem_rowMajor.mpr hrange
        have e1 : p ∈ userCellsOf g d1 ↔ p ∉ d1 := by
          rw [mem_userCellsOf]
          tauto
        have e2 : p ∈ userCellsOf g d2 ↔ p ∉ d2 := by
          rw [mem_userCellsOf]
          tauto
        rw [huser] at e1
        tauto
    rw [hd]

/-- C4, witness: the amended theorem applied to a filled grid and a
previously-deduced set holding only a filled coordinate. -/
theorem C4_witness :
    WF sampleSolved ∧
      updateAutoSolvedCells sampleSolved {Pos.mk 0 0} =
        updateAutoSolvedCells sampleSolved {Pos.mk 0 0} := by
  refine ⟨by decide, ?_⟩
  exact (C4_deduced_function_of_user_coords sampleSolved {Pos.mk 0 0}
    {Pos.mk 0 0} (by decide) rfl).2 (by decide) (by decide)


/-! ### Conflict-map lemmas -/

/-- The keys of a bucket map, in insertion order. -/
def keysOf {α : Type} (m : List (Nat × List α)) : List Nat := m.map Prod.fst

/-- Bucket lookup. -/
def lookupB {α : Type} (m : List (Nat × List α)) (v : Nat) :
    Option (List α) := (m.find? fun b => b.1 == v).map Prod.snd

/-- The tags of the entries of `L` holding value `v`, in order. -/
def tagsOf {α : Type} (L : List (α × Cell)) (v : Nat) : List α :=
  (L.filter fun q => q.2 == some v).map Prod.fst

theorem keysOf_insertOcc {α : Type} (m : List (Nat × List α)) (v : Nat)
    (x : α) : keysOf (insertOcc m v x) =
      if v ∈ keysOf m then keysOf m else keysOf m ++ [v] := by
  induction m with
  | nil => simp [insertOcc, keysOf]
  | cons b rest ih =>
    obtain ⟨k, xs⟩ := b
    by_cases hk : k = v
    · subst hk
      simp [insertOcc, keysOf]
    · simp only [insertOcc, if_neg hk, keysOf, List.map_cons] at ih ⊢
      rw [ih]
      have : (v ∈ k :: rest.map Prod.fst) ↔ (v ∈ rest.map Prod.fst) := by
        rw [List.mem_cons]
        constructor
        · rintro (rfl | h)
          · exact absurd rfl hk
          · exact h
        · exact Or.inr
      by_cases hv : v ∈ rest.map Prod.fst
      · rw [if_pos hv, if_pos (this.mpr hv)]
      · rw [if_neg hv, if_neg (fun hc => hv (this.mp hc))]
        simp

theorem lookupB_nil {α : Type} (v : Nat) :
    lookupB ([] : List (Nat × List α)) v = none := rfl

theorem lookupB_cons {α : Type} (k : Nat) (ys : List α)
    (rest : List (Nat × List α)) (v : Nat) :
    lookupB ((k, ys) :: rest) v =
      if k = v then some ys else lookupB rest v := by
  by_cases hk : k = v
  · rw [if_pos hk, lookupB, List.find?_cons_of_pos _ (by simp [hk])]
    rfl
  · rw [if_neg hk, lookupB, List.find?_cons_of_neg _ (by simp [hk])]
    rfl

theorem lookupB_insertOcc_self {α : Type} (m : List (Nat × List α)) (v : Nat)
    (x : α) : lookupB (insertOcc m v x) v =
      some ((lookupB m v).getD [] ++ [x]) := by
  induction m with
  | nil => simp [insertOcc, lookupB_cons, lookupB_nil]
  | cons b rest ih =>
    obtain ⟨k, ys⟩ := b
    by_cases hk : k = v
    · subst hk
      rw [insertOcc, if_pos rfl, lookupB_cons, if_pos rfl, lookupB_cons,
        if_pos rfl]
      rfl
    · rw [insertOcc, if_neg hk, lookupB_cons, if_neg hk, ih, lookupB_cons,
        if_neg hk]

theorem lookupB_insertOcc_ne {α : Type} (m : List (Nat × List α)) {v w : Nat}
    (hne : w ≠ v) (x : α) : lookupB (insertOcc m v x) w = lookupB m w := by
  induction m with
  | nil =>
    rw [insertOcc, lookupB_cons, if_neg (fun h => hne h.symm)]
  | cons b rest ih =>
    obtain ⟨k, ys⟩ := b
    by_cases hk : k = v
    · subst hk
      rw [insertOcc, if_pos rfl, lookupB_cons, lookupB_cons,
        if_neg (fun h => hne h.symm), if_neg (fun h => hne h.symm)]
    · rw [insertOcc, if_neg hk, lookupB_cons, lookupB_cons, ih]

theorem keysOf_collectOcc_nodup {α : Type} (L : List (α × Cell)) :
    ∀ m : List (Nat × List α), (keysOf m).Nodup →
      (keysOf (collectOcc L m)).Nodup := by
  induction L with
  | nil => intro m h; exact h
  | cons q rest ih =>
    obtain ⟨i, val⟩ := q
    cases val with
    | none => intro m h; exact ih m h
    | some v =>
      intro m h
      apply ih
      rw [keysOf_insertOcc]
      by_cases hv : v ∈ keysOf m
      · rw [if_pos hv]; exact h
      · rw [if_neg hv]
        refine List.Nodup.append h (List.nodup_singleton v) ?_
        intro a ha hb
        simp only [List.mem_singleton] at hb
        exact hv (hb ▸ ha)

theorem lookupB_collectOcc {α : Type} [DecidableEq α]
    (L : List (α × Cell)) :
    ∀ (m : List (Nat × List α)) (v : Nat),
      lookupB (collectOcc L m) v =
        if (lookupB m v).isSome ∨ tagsOf L v ≠ [] then
          some ((lookupB m v).getD [] ++ tagsOf L v)
        else none := by
  induction L with
  | nil =>
    intro m v
    rw [collectOcc]
    have htag : tagsOf ([] : List (α × Cell)) v = [] := rfl
    rw [htag]
    rcases h : lookupB m v with _ | xs
    · simp
    · simp
  | cons q rest ih =>
    obtain ⟨i, val⟩ := q
    cases val with
    | none =>
      intro m v
      have htag : tagsOf ((i, (none : Cell)) :: rest) v = tagsOf rest v := by
        simp [tagsOf]
      rw [collectOcc, htag]
      exact ih m v
    | some w =>
      intro m v
      by_cases hv : v = w
      · subst hv
        have htag : tagsOf ((i, (some v : Cell)) :: rest) v =
            i :: tagsOf rest v := by
          simp [tagsOf]
        rw [collectOcc, htag, ih, lookupB_insertOcc_self]
        have h1 : ((some ((lookupB m v).getD [] ++ [i])).isSome ∨
            tagsOf rest v ≠ []) := Or.inl rfl
        rw [if_pos h1, if_pos (Or.inr (by simp))]
        simp
      · have htag : tagsOf ((i, (some w : Cell)) :: rest) v =
            tagsOf rest v := by
          rw [tagsOf, List.filter_cons]
          have hb : (((i, (some w : Cell))).2 == some v) = false := by
            simp only [beq_eq_false_iff_ne, ne_eq, Option.some.injEq]
            exact fun h => hv h.symm
          rw [hb]
          rfl
        rw [collectOcc, htag, ih, lookupB_insertOcc_ne _ hv]

theorem mem_of_nodup_keysOf {α : Type} {m : List (Nat × List α)}
    (hnd : (keysOf m).Nodup) (v : Nat) (xs : List α) :
    (v, xs) ∈ m ↔ lookupB m v = some xs := by
  induction m with
  | nil => simp [lookupB_nil]
  | cons b rest ih =>
    obtain ⟨k, ys⟩ := b
    obtain ⟨hk, hrest⟩ := List.nodup_cons.mp hnd
    rw [lookupB_cons, List.mem_cons]
    by_cases hkv : k = v
    · subst hkv
      rw [if_pos rfl]
      constructor
      · rintro (heq | hmem)
        · cases heq; rfl
        · exact absurd (List.mem_map.mpr ⟨(k, xs), hmem, rfl⟩) hk
      · rintro heq
        cases heq
        exact Or.inl rfl
    · rw [if_neg hkv, ← ih hrest]
      constructor
      · rintro (heq | hmem)
        · cases heq
          exact absurd rfl hkv
        · exact hmem
      · exact Or.inr

/-- Characterization of the buckets kept by a `findConflicts` scope. -/
theorem mem_dupBuckets_iff {α : Type} [DecidableEq α] (L : List (α × Cell))
    (v : Nat) (xs : List α) :
    (v, xs) ∈ (collectOcc L []).filter (fun b => b.2.length > 1) ↔
      xs = tagsOf L v ∧ 2 ≤ xs.length := by
  rw [List.mem_filter,
    mem_of_nodup_keysOf (keysOf_collectOcc_nodup L [] (by simp [keysOf])),
    lookupB_collectOcc]
  have hnone : lookupB ([] : List (Nat × List α)) v = none := rfl
  rw [hnone]
  constructor
  · rintro ⟨hif, hlen⟩
    by_cases hc : (none : Option (List α)).isSome ∨ tagsOf L v ≠ []
    · rw [if_pos hc] at hif
      simp only [Option.getD_none, List.nil_append] at hif
      cases hif
      exact ⟨rfl, by simpa using hlen⟩
    · rw [if_neg hc] at hif
      cases hif
  · rintro ⟨rfl, hlen⟩
    have hne : tagsOf L v ≠ [] := by
      intro hc
      rw [hc] at hlen
      simp at hlen
    rw [if_pos (Or.inr hne)]
    constructor
    · simp
    · simpa using hlen


/-- The positions of box `(boxRow, boxCol)` in the box scan order. -/
def boxPosList (br bc : Nat) : List Pos :=
  ((List.range 3).map fun a => (List.range 3).map fun b =>
    Pos.mk (br * 3 + a) (bc * 3 + b)).flatten

/-- The row scan list of `findConflicts`, tagged with column indices. -/
def rowTagged (g : Grid) (i : Nat) : List (Nat × Cell) :=
  (List.range 9).map fun c => (c, cell g i c)

/-- The column scan list of `findConflicts`, tagged with row indices. -/
def colTagged (g : Grid) (i : Nat) : List (Nat × Cell) :=
  (List.range 9).map fun r => (r, cell g r i)

/-- The box scan list of `findConflicts`, tagged with coordinates. -/
def boxTagged (g : Grid) (br bc : Nat) : List (Pos × Cell) :=
  (boxPosList br bc).map fun p => (p, cell g p.row p.col)

/-- The coordinates of a scope holding value `v`, in scan order: the
specification of a conflict entry's cell list. -/
def scopePositions (g : Grid) : ScopeType → Nat → Nat → List Pos
  | ScopeType.row, i, v =>
    ((List.range 9).filter fun c => cell g i c == some v).map fun c =>
      Pos.mk i c
  | ScopeType.column, i, v =>
    ((List.range 9).filter fun r => cell g r i == some v).map fun r =>
      Pos.mk r i
  | ScopeType.box, i, v =>
    (boxPosList (i / 3) (i % 3)).filter fun p => cell g p.row p.col == some v

theorem tagsOf_map_pair {γ : Type} (l : List γ) (h : γ → Cell) (v : Nat) :
    tagsOf (l.map fun c => (c, h c)) v =
      l.filter fun c => h c == some v := by
  induction l with
  | nil => rfl
  | cons c rest ih =>
    rw [List.map_cons, tagsOf, List.filter_cons, List.filter_cons]
    by_cases hc : (h c == some v) = true
    · rw [if_pos hc, if_pos hc, List.map_cons, ← tagsOf, ih]
    · rw [if_neg hc, if_neg hc, ← tagsOf, ih]

theorem rowTagged_fst_nodup (g : Grid) (i : Nat) :
    ((rowTagged g i).map Prod.fst).Nodup := by
  rw [rowTagged, List.map_map]
  have : (Prod.fst ∘ fun c => ((c : Nat), cell g i c)) = id := rfl
  rw [this, List.map_id]
  exact List.nodup_range 9

theorem colTagged_fst_nodup (g : Grid) (i : Nat) :
    ((colTagged g i).map Prod.fst).Nodup := by
  rw [colTagged, List.map_map]
  have : (Prod.fst ∘ fun r => ((r : Nat), cell g r i)) = id := rfl
  rw [this, List.map_id]
  exact List.nodup_range 9

theorem boxPosList_nodup (br bc : Nat) : (boxPosList br bc).Nodup := by
  rw [boxPosList]
  rw [List.nodup_flatten]
  constructor
  · intro l hl
    obtain ⟨a, ha, rfl⟩ := List.mem_map.mp hl
    refine List.Nodup.map ?_ (List.nodup_range 3)
    intro b1 b2 hb
    have : bc * 3 + b1 = bc * 3 + b2 := congrArg Pos.col hb
    omega
  · rw [List.pairwise_map]
    refine List.Pairwise.imp ?_ (List.pairwise_lt_range 3)
    intro a1 a2 hlt
    rw [List.disjoint_left]
    intro p hp1 hp2
    obtain ⟨b1, -, rfl⟩ := List.mem_map.mp hp1
    obtain ⟨b2, -, he⟩ := List.mem_map.mp hp2
    have : br * 3 + a2 = br * 3 + a1 := congrArg Pos.row he
    omega

theorem boxTagged_fst_nodup (g : Grid) (br bc : Nat) :
    ((boxTagged g br bc).map Prod.fst).Nodup := by
  rw [boxTagged, List.map_map]
  have : (Prod.fst ∘ fun p => ((p : Pos), cell g p.row p.col)) = id := rfl
  rw [this, List.map_id]
  exact boxPosList_nodup br bc

/-- The three `findConflicts` scope sections, restated through the tagged
scan lists. -/
theorem rowConflicts_eq (g : Grid) (i : Nat) :
    rowConflicts g i =
      (((collectOcc (rowTagged g i) []).filter fun b =>
        b.2.length > 1).map fun b =>
          Conflict.mk ScopeType.row i (b.2.map fun col => Pos.mk i col)) := rfl

theorem colConflicts_eq (g : Grid) (i : Nat) :
    colConflicts g i =
      (((collectOcc (colTagged g i) []).filter fun b =>
        b.2.length > 1).map fun b =>
          Conflict.mk ScopeType.column i (b.2.map fun row => Pos.mk row i)) :=
  rfl

theorem boxConflicts_eq (g : Grid) (br bc : Nat) :
    boxConflicts g br bc =
      (((collectOcc (boxTagged g br bc) []).filter fun b =>
        b.2.length > 1).map fun b =>
          Conflict.mk ScopeType.box (br * 3 + bc) b.2) := by
  rw [boxConflicts, boxTagged, boxPosList]
  have hmap : ((List.range 3).map fun a => (List.range 3).map fun b =>
      Pos.mk (br * 3 + a) (bc * 3 + b)).flatten.map
        (fun p => ((p : Pos), cell g p.row p.col)) =
      ((List.range 3).map fun i2 => (List.range 3).map fun j =>
        (Pos.mk (br * 3 + i2) (bc * 3 + j),
          cell g (br * 3 + i2) (bc * 3 + j))).flatten := by
    rw [List.map_flatten, List.map_map]
    rfl
  rw [hmap]


theorem snd_unique_of_fst_nodup {α : Type} {L : List (α × Cell)}
    (hL : (L.map Prod.fst).Nodup) {x : α} {a b : Cell}
    (ha : (x, a) ∈ L) (hb : (x, b) ∈ L) : a = b := by
  induction L with
  | nil => cases ha
  | cons q rest ih =>
    rw [List.map_cons, List.nodup_cons] at hL
    obtain ⟨hq, hrest⟩ := hL
    rcases List.mem_cons.mp ha with heq1 | ha2
    · rcases List.mem_cons.mp hb with heq2 | hb2
      · rw [← heq1] at heq2
        cases heq2
        rfl
      · rw [← heq1] at hq
        exact absurd (List.mem_map.mpr ⟨(x, b), hb2, rfl⟩) hq
    · rcases List.mem_cons.mp hb with heq2 | hb2
      · rw [← heq2] at hq
        exact absurd (List.mem_map.mpr ⟨(x, a), ha2, rfl⟩) hq
      · exact ih hrest ha2 hb2

theorem mem_tagsOf {α : Type} {L : List (α × Cell)} {x : α} {v : Nat} :
    x ∈ tagsOf L v ↔ (x, (some v : Cell)) ∈ L := by
  rw [tagsOf]
  constructor
  · intro hx
    obtain ⟨⟨y, cc⟩, hmem, rfl⟩ := List.mem_map.mp hx
    obtain ⟨hL, hcc⟩ := List.mem_filter.mp hmem
    rw [beq_iff_eq] at hcc
    cases hcc
    exact hL
  · intro hx
    exact List.mem_map.mpr ⟨(x, some v),
      List.mem_filter.mpr ⟨hx, by simp⟩, rfl⟩

theorem tag_value_unique {α : Type} {L : List (α × Cell)}
    (hL : (L.map Prod.fst).Nodup) {x : α} {v w : Nat}
    (hv : x ∈ tagsOf L v) (hw : x ∈ tagsOf L w) : v = w := by
  have h := snd_unique_of_fst_nodup hL (mem_tagsOf.mp hv) (mem_tagsOf.mp hw)
  cases h
  rfl

theorem countP_decide_eq_of_nodup {β : Type} [DecidableEq β] (l : List β)
    (a : β) (hnd : l.Nodup) :
    l.countP (fun b => decide (b = a)) = if a ∈ l then 1 else 0 := by
  induction l with
  | nil => simp
  | cons x t ih =>
    obtain ⟨hx, ht⟩ := List.nodup_cons.mp hnd
    rw [List.countP_cons]
    by_cases hxa : x = a
    · subst hxa
      rw [ih ht, if_neg hx, if_pos (List.mem_cons_self x t)]
      simp
    · rw [ih ht]
      have hmi : (a ∈ x :: t) ↔ (a ∈ t) := by
        rw [List.mem_cons]
        constructor
        · rintro (rfl | h)
          · exact absurd rfl hxa
          · exact h
        · exact Or.inr
      by_cases hat : a ∈ t
      · rw [if_pos hat, if_pos (hmi.mpr hat)]
        simp [hxa]
      · rw [if_neg hat, if_neg (fun hc => hat (hmi.mp hc))]
        simp [hxa]

theorem dupBuckets_nodup {α : Type} (L : List (α × Cell)) :
    ((collectOcc L []).filter fun b => b.2.length > 1).Nodup := by
  have hkeys : (keysOf (collectOcc L [])).Nodup :=
    keysOf_collectOcc_nodup L [] (by simp [keysOf])
  exact (List.Nodup.of_map _ hkeys).filter _

theorem mem_dupBuckets_pair {α : Type} [DecidableEq α] {L : List (α × Cell)}
    {b : Nat × List α}
    (hb : b ∈ (collectOcc L []).filter fun b2 => b2.2.length > 1) :
    b.2 = tagsOf L b.1 ∧ 2 ≤ b.2.length := by
  have := (mem_dupBuckets_iff L b.1 b.2).mp (by
    have hbe : (b.1, b.2) = b := rfl
    rw [hbe]
    exact hb)
  exact this

/-- Counting the conflict entry belonging to value `v` in one scope block:
exactly one entry when `v` occurs at two or more cells of the scope, zero
otherwise. -/
theorem block_count {α : Type} [DecidableEq α] (L : List (α × Cell))
    (hL : (L.map Prod.fst).Nodup) (F : List α → List Pos)
    (HF : Function.Injective F) (t : ScopeType) (i v : Nat) :
    ((((collectOcc L []).filter fun b => b.2.length > 1).map fun b =>
      Conflict.mk t i (F b.2)).count (Conflict.mk t i (F (tagsOf L v)))) =
      if 2 ≤ (tagsOf L v).length then 1 else 0 := by
  have hcount : ((((collectOcc L []).filter fun b => b.2.length > 1).map
      fun b => Conflict.mk t i (F b.2)).count
        (Conflict.mk t i (F (tagsOf L v)))) =
      (((collectOcc L []).filter fun b => b.2.length > 1).countP
        fun b => Conflict.mk t i (F b.2) == Conflict.mk t i (F (tagsOf L v))) := by
    rw [List.count, List.countP_map]
    rfl
  rw [hcount]
  have hcong : ∀ b ∈ (collectOcc L []).filter fun b2 => b2.2.length > 1,
      (Conflict.mk t i (F b.2) == Conflict.mk t i (F (tagsOf L v))) =
        decide (b = (v, tagsOf L v)) := by
    intro b hb
    obtain ⟨htags, hlen⟩ := mem_dupBuckets_pair hb
    by_cases hbv : b = (v, tagsOf L v)
    · rw [hbv]
      simp
    · have hne : Conflict.mk t i (F b.2) ≠ Conflict.mk t i (F (tagsOf L v)) := by
        intro hc
        have hcells : F b.2 = F (tagsOf L v) := congrArg Conflict.cells hc
        have hb2 : b.2 = tagsOf L v := HF hcells
        have hx : ∃ x, x ∈ b.2 := by
          apply List.exists_mem_of_ne_nil
          intro hnil
          rw [hnil] at hlen
          simp at hlen
        obtain ⟨x, hx⟩ := hx
        have hv1 : x ∈ tagsOf L b.1 := htags ▸ hx
        have hv2 : x ∈ tagsOf L v := hb2 ▸ hx
        have : b.1 = v := tag_value_unique hL hv1 hv2
        exact hbv (Prod.ext this hb2)
      rw [beq_eq_false_iff_ne.mpr hne, decide_eq_false hbv]
  rw [List.countP_congr (fun b hb => by rw [hcong b hb]),
    countP_decide_eq_of_nodup _ _ (dupBuckets_nodup L)]
  by_cases hmem : ((v, tagsOf L v)) ∈
      (collectOcc L []).filter fun b2 => b2.2.length > 1
  · have hif : 2 ≤ (tagsOf L v).length :=
      ((mem_dupBuckets_iff L v (tagsOf L v)).mp hmem).2
    rw [if_pos hif, if_pos hmem]
  · have hif : ¬2 ≤ (tagsOf L v).length := by
      intro hc
      exact hmem ((mem_dupBuckets_iff L v (tagsOf L v)).mpr ⟨rfl, hc⟩)
    rw [if_neg hif, if_neg hmem]

/-- Every entry of one scope block carries the scope's kind and index and
lists exactly the tags of some duplicated value. -/
theorem block_sound {α : Type} [DecidableEq α] {L : List (α × Cell)}
    {F : List α → List Pos} {t : ScopeType} {i : Nat} {cf : Conflict}
    (hcf : cf ∈ ((collectOcc L []).filter fun b => b.2.length > 1).map
      fun b => Conflict.mk t i (F b.2)) :
    ∃ v, cf = Conflict.mk t i (F (tagsOf L v)) ∧ 2 ≤ (tagsOf L v).length := by
  obtain ⟨b, hb, rfl⟩ := List.mem_map.mp hcf
  obtain ⟨htags, hlen⟩ := mem_dupBuckets_pair hb
  exact ⟨b.1, by rw [htags], htags ▸ hlen⟩


theorem scopePositions_row (g : Grid) (i v : Nat) :
    scopePositions g ScopeType.row i v =
      (tagsOf (rowTagged g i) v).map fun c => Pos.mk i c := by
  rw [rowTagged, tagsOf_map_pair]
  rfl

theorem scopePositions_col (g : Grid) (i v : Nat) :
    scopePositions g ScopeType.column i v =
      (tagsOf (colTagged g i) v).map fun r => Pos.mk r i := by
  rw [colTagged, tagsOf_map_pair]
  rfl

theorem scopePositions_box (g : Grid) (i v : Nat) :
    scopePositions g ScopeType.box i v =
      tagsOf (boxTagged g (i / 3) (i % 3)) v := by
  rw [boxTagged, tagsOf_map_pair]
  rfl

theorem mem_scopePositions_cell {g : Grid} {t : ScopeType} {i v : Nat}
    {p : Pos} (hp : p ∈ scopePositions g t i v) :
    cell g p.row p.col = some v := by
  cases t with
  | row =>
    obtain ⟨c, hc, rfl⟩ := List.mem_map.mp hp
    have := (List.mem_filter.mp hc).2
    rw [beq_iff_eq] at this
    exact this
  | column =>
    obtain ⟨r, hr, rfl⟩ := List.mem_map.mp hp
    have := (List.mem_filter.mp hr).2
    rw [beq_iff_eq] at this
    exact this
  | box =>
    have := (List.mem_filter.mp hp).2
    rw [beq_iff_eq] at this
    exact this

theorem count_rowConflicts_eq_zero (g : Grid) (r : Nat) {e : Conflict}
    (he : e.type ≠ ScopeType.row ∨ e.index ≠ r) :
    (rowConflicts g r).count e = 0 := by
  rw [List.count_eq_zero]
  intro hmem
  rw [rowConflicts_eq] at hmem
  obtain ⟨b, -, rfl⟩ := List.mem_map.mp hmem
  rcases he with h | h
  · exact h rfl
  · exact h rfl

theorem count_colConflicts_eq_zero (g : Grid) (c : Nat) {e : Conflict}
    (he : e.type ≠ ScopeType.column ∨ e.index ≠ c) :
    (colConflicts g c).count e = 0 := by
  rw [List.count_eq_zero]
  intro hmem
  rw [colConflicts_eq] at hmem
  obtain ⟨b, -, rfl⟩ := List.mem_map.mp hmem
  rcases he with h | h
  · exact h rfl
  · exact h rfl

theorem count_boxConflicts_eq_zero (g : Grid) (br bc : Nat) {e : Conflict}
    (he : e.type ≠ ScopeType.box ∨ e.index ≠ br * 3 + bc) :
    (boxConflicts g br bc).count e = 0 := by
  rw [List.count_eq_zero]
  intro hmem
  rw [boxConflicts_eq] at hmem
  obtain ⟨b, -, rfl⟩ := List.mem_map.mp hmem
  rcases he with h | h
  · exact h rfl
  · exact h rfl

theorem sum_map_range_eq_single {n i : Nat} (hi : i < n) (f : Nat → Nat)
    (hz : ∀ j, j < n → j ≠ i → f j = 0) :
    ((List.range n).map f).sum = f i := by
  induction n with
  | zero => omega
  | succ n ih =>
    rw [List.range_succ, List.map_append, List.sum_append]
    by_cases hin : i = n
    · subst hin
      have hzero : (((List.range i).map f)).sum = 0 := by
        apply List.sum_eq_zero
        intro x hx
        obtain ⟨j, hj, rfl⟩ := List.mem_map.mp hx
        have hji := List.mem_range.mp hj
        exact hz j (by omega) (by omega)
      rw [hzero]
      simp
    · have hsum := ih (by omega) (fun j hj hne => hz j (by omega) hne)
      have h0 : f n = 0 := hz n (by omega) (fun h => hin h.symm)
      rw [hsum]
      simp [h0]


theorem findConflicts_count_row (g : Grid) {i : Nat} (v : Nat) (hi : i < 9) :
    (findConflicts g).count
        (Conflict.mk ScopeType.row i (scopePositions g ScopeType.row i v)) =
      if 2 ≤ (scopePositions g ScopeType.row i v).length then 1 else 0 := by
  rw [scopePositions_row, List.length_map, findConflicts, List.count_append,
    List.count_append]
  have hB : ((((List.range 9).map fun c => colConflicts g c).flatten).count
      (Conflict.mk ScopeType.row i
        ((tagsOf (rowTagged g i) v).map fun c => Pos.mk i c))) = 0 := by
    rw [List.count_flatten]
    apply List.sum_eq_zero
    intro x hx
    obtain ⟨l, hl, rfl⟩ := List.mem_map.mp hx
    obtain ⟨c, -, rfl⟩ := List.mem_map.mp hl
    exact count_colConflicts_eq_zero g c
      (Or.inl fun h => ScopeType.noConfusion h)
  have hC : (((((List.range 3).map fun boxRow => (List.range 3).map
      fun boxCol => boxConflicts g boxRow boxCol).flatten).flatten).count
      (Conflict.mk ScopeType.row i
        ((tagsOf (rowTagged g i) v).map fun c => Pos.mk i c))) = 0 := by
    rw [List.count_flatten]
    apply List.sum_eq_zero
    intro x hx
    obtain ⟨l, hl, rfl⟩ := List.mem_map.mp hx
    obtain ⟨ll, hll, hl2⟩ := List.mem_flatten.mp hl
    obtain ⟨br, -, rfl⟩ := List.mem_map.mp hll
    obtain ⟨bc, -, rfl⟩ := List.mem_map.mp hl2
    exact count_boxConflicts_eq_zero g br bc
      (Or.inl fun h => ScopeType.noConfusion h)
  rw [hB, hC, List.count_flatten, List.map_map]
  simp only [Nat.zero_add, Nat.add_zero]
  have hsingle := sum_map_range_eq_single hi
    (fun r => (rowConflicts g r).count (Conflict.mk ScopeType.row i
      ((tagsOf (rowTagged g i) v).map fun c => Pos.mk i c)))
    (fun j hj hne => count_rowConflicts_eq_zero g j
      (Or.inr fun h => hne h.symm))
  rw [show ((List.count (Conflict.mk ScopeType.row i
      ((tagsOf (rowTagged g i) v).map fun c => Pos.mk i c))) ∘
      fun r => rowConflicts g r) =
    (fun r => (rowConflicts g r).count (Conflict.mk ScopeType.row i
      ((tagsOf (rowTagged g i) v).map fun c => Pos.mk i c))) from rfl]
  rw [hsingle]
  show (rowConflicts g i).count (Conflict.mk ScopeType.row i
    ((tagsOf (rowTagged g i) v).map fun c => Pos.mk i c)) =
      if 2 ≤ (tagsOf (rowTagged g i) v).length then 1 else 0
  rw [rowConflicts_eq]
  have hinj : Function.Injective
      (fun xs : List Nat => xs.map fun c => Pos.mk i c) := by
    apply List.map_injective_iff.mpr
    intro a b h
    exact congrArg Pos.col h
  have := block_count (rowTagged g i) (rowTagged_fst_nodup g i)
    (fun xs => xs.map fun c => Pos.mk i c) hinj ScopeType.row i v
  simpa using this

theorem findConflicts_count_col (g : Grid) {i : Nat} (v : Nat) (hi : i < 9) :
    (findConflicts g).count
        (Conflict.mk ScopeType.column i
          (scopePositions g ScopeType.column i v)) =
      if 2 ≤ (scopePositions g ScopeType.column i v).length then 1 else 0 := by
  rw [scopePositions_col, List.length_map, findConflicts, List.count_append,
    List.count_append]
  have hA : ((((List.range 9).map fun r => rowConflicts g r).flatten).count
      (Conflict.mk ScopeType.column i
        ((tagsOf (colTagged g i) v).map fun r => Pos.mk r i))) = 0 := by
    rw [List.count_flatten]
    apply List.sum_eq_zero
    intro x hx
    obtain ⟨l, hl, rfl⟩ := List.mem_map.mp hx
    obtain ⟨r, -, rfl⟩ := List.mem_map.mp hl
    exact count_rowConflicts_eq_zero g r
      (Or.inl fun h => ScopeType.noConfusion h)
  have hC : (((((List.range 3).map fun boxRow => (List.range 3).map
      fun boxCol => boxConflicts g boxRow boxCol).flatten).flatten).count
      (Conflict.mk ScopeType.column i
        ((tagsOf (colTagged g i) v).map fun r => Pos.mk r i))) = 0 := by
    rw [List.count_flatten]
    apply List.sum_eq_zero
    intro x hx
    obtain ⟨l, hl, rfl⟩ := List.mem_map.mp hx
    obtain ⟨ll, hll, hl2⟩ := List.mem_flatten.mp hl
    obtain ⟨br, -, rfl⟩ := List.mem_map.mp hll
    obtain ⟨bc, -, rfl⟩ := List.mem_map.mp hl2
    exact count_boxConflicts_eq_zero g br bc
      (Or.inl fun h => ScopeType.noConfusion h)
  rw [hA, hC, List.count_flatten, List.map_map]
  simp only [Nat.zero_add, Nat.add_zero]
  have hsingle := sum_map_range_eq_single hi
    (fun c => (colConflicts g c).count (Conflict.mk ScopeType.column i
      ((tagsOf (colTagged g i) v).map fun r => Pos.mk r i)))
    (fun j hj hne => count_colConflicts_eq_zero g j
      (Or.inr fun h => hne h.symm))
  rw [show ((List.count (Conflict.mk ScopeType.column i
      ((tagsOf (colTagged g i) v).map fun r => Pos.mk r i))) ∘
      fun c => colConflicts g c) =
    (fun c => (colConflicts g c).count (Conflict.mk ScopeType.column i
      ((tagsOf (colTagged g i) v).map fun r => Pos.mk r i))) from rfl]
  rw [hsingle]
  show (colConflicts g i).count (Conflict.mk ScopeType.column i
    ((tagsOf (colTagged g i) v).map fun r => Pos.mk r i)) =
      if 2 ≤ (tagsOf (colTagged g i) v).length then 1 else 0
  rw [colConflicts_eq]
  have hinj : Function.Injective
      (fun xs : List Nat => xs.map fun r => Pos.mk r i) := by
    apply List.map_injective_iff.mpr
    intro a b h
    exact congrArg Pos.row h
  have := block_count (colTagged g i) (colTagged_fst_nodup g i)
    (fun xs => xs.map fun r => Pos.mk r i) hinj ScopeType.column i v
  simpa using this

theorem count_box_block (g : Grid) (e : Conflict) :
    (((((List.range 3).map fun boxRow => (List.range 3).map fun boxCol =>
      boxConflicts g boxRow boxCol).flatten).flatten).count e) =
      ((List.range 3).map fun br => ((List.range 3).map fun bc =>
        (boxConflicts g br bc).count e).sum).sum := by
  rw [List.count_flatten, List.map_flatten, List.map_map, List.sum_flatten,
    List.map_map]
  congr 1

theorem findConflicts_count_box (g : Grid) {i : Nat} (v : Nat) (hi : i < 9) :
    (findConflicts g).count
        (Conflict.mk ScopeType.box i (scopePositions g ScopeType.box i v)) =
      if 2 ≤ (scopePositions g ScopeType.box i v).length then 1 else 0 := by
  rw [scopePositions_box, findConflicts, List.count_append,
    List.count_append]
  have hA : ((((List.range 9).map fun r => rowConflicts g r).flatten).count
      (Conflict.mk ScopeType.box i
        (tagsOf (boxTagged g (i / 3) (i % 3)) v))) = 0 := by
    rw [List.count_flatten]
    apply List.sum_eq_zero
    intro x hx
    obtain ⟨l, hl, rfl⟩ := List.mem_map.mp hx
    obtain ⟨r, -, rfl⟩ := List.mem_map.mp hl
    exact count_rowConflicts_eq_zero g r
      (Or.inl fun h => ScopeType.noConfusion h)
  have hB : ((((List.range 9).map fun c => colConflicts g c).flatten).count
      (Conflict.mk ScopeType.box i
        (tagsOf (boxTagged g (i / 3) (i % 3)) v))) = 0 := by
    rw [List.count_flatten]
    apply List.sum_eq_zero
    intro x hx
    obtain ⟨l, hl, rfl⟩ := List.mem_map.mp hx
    obtain ⟨c, -, rfl⟩ := List.mem_map.mp hl
    exact count_colConflicts_eq_zero g c
      (Or.inl fun h => ScopeType.noConfusion h)
  rw [hA, hB, count_box_block]
  simp only [Nat.zero_add, Nat.add_zero]
  have hinner : ∀ br, br < 3 → br ≠ i / 3 →
      ((List.range 3).map fun bc => (boxConflicts g br bc).count
        (Conflict.mk ScopeType.box i
          (tagsOf (boxTagged g (i / 3) (i % 3)) v))).sum = 0 := by
    intro br hbr hne
    apply List.sum_eq_zero
    intro x hx
    obtain ⟨bc, hbc, rfl⟩ := List.mem_map.mp hx
    have hbc3 := List.mem_range.mp hbc
    refine count_boxConflicts_eq_zero g br bc (Or.inr ?_)
    show ¬i = br * 3 + bc
    omega
  rw [sum_map_range_eq_single (show i / 3 < 3 by omega) _ hinner]
  show ((List.range 3).map fun bc => (boxConflicts g (i / 3) bc).count
      (Conflict.mk ScopeType.box i
        (tagsOf (boxTagged g (i / 3) (i % 3)) v))).sum =
    if 2 ≤ (tagsOf (boxTagged g (i / 3) (i % 3)) v).length then 1 else 0
  have hinner2 : ∀ bc, bc < 3 → bc ≠ i % 3 →
      ((boxConflicts g (i / 3) bc).count (Conflict.mk ScopeType.box i
        (tagsOf (boxTagged g (i / 3) (i % 3)) v))) = 0 := by
    intro bc hbc hne
    refine count_boxConflicts_eq_zero g (i / 3) bc (Or.inr ?_)
    show ¬i = i / 3 * 3 + bc
    omega
  rw [sum_map_range_eq_single (show i % 3 < 3 by omega) _ hinner2]
  show (boxConflicts g (i / 3) (i % 3)).count (Conflict.mk ScopeType.box i
      (tagsOf (boxTagged g (i / 3) (i % 3)) v)) =
    if 2 ≤ (tagsOf (boxTagged g (i / 3) (i % 3)) v).length then 1 else 0
  rw [boxConflicts_eq]
  have hieq : i / 3 * 3 + i % 3 = i := by omega
  rw [hieq]
  have := block_count (boxTagged g (i / 3) (i % 3))
    (boxTagged_fst_nodup g (i / 3) (i % 3)) (fun xs => xs)
    (fun a b h => h) ScopeType.box i v
  simpa using this

/-! ### Claim C7 -/

/-- C7: for every grid and each of the 27 scopes, `findConflicts` yields
exactly one `Conflict` entry per value occurring at two or more filled cells
of the scope, carrying the scope kind and index and listing **all**
coordinates of the scope holding that value (`scopePositions`); and every
entry of `findConflicts` is of exactly that shape. -/
theorem C7_findConflicts_exact (g : Grid) :
    (∀ (t : ScopeType) (i v : Nat), i < 9 →
      (findConflicts g).count (Conflict.mk t i (scopePositions g t i v)) =
        if 2 ≤ (scopePositions g t i v).length then 1 else 0) ∧
    (∀ cf ∈ findConflicts g, cf.index < 9 ∧ ∃ v,
      cf.cells = scopePositions g cf.type cf.index v ∧
        2 ≤ cf.cells.length ∧
        ∀ p ∈ cf.cells, cell g p.row p.col = some v) := by
  constructor
  · intro t i v hi
    cases t with
    | row => exact findConflicts_count_row g v hi
    | column => exact findConflicts_count_col g v hi
    | box => exact findConflicts_count_box g v hi
  · intro cf hcf
    rw [findConflicts, List.mem_append, List.mem_append] at hcf
    rcases hcf with (hrow | hcol) | hbox
    · obtain ⟨l, hl, hcf⟩ := List.mem_flatten.mp hrow
      obtain ⟨r, hr9, rfl⟩ := List.mem_map.mp hl
      rw [rowConflicts_eq] at hcf
      obtain ⟨v, rfl, hlen⟩ :=
        block_sound (F := fun xs => xs.map fun col => Pos.mk r col) hcf
      refine ⟨List.mem_range.mp hr9, v, ?_, ?_, ?_⟩
      · rw [scopePositions_row]
      · rw [List.length_map]
        exact hlen
      · intro p hp
        have hp2 : p ∈ scopePositions g ScopeType.row r v := by
          rw [scopePositions_row]
          exact hp
        exact mem_scopePositions_cell hp2
    · obtain ⟨l, hl, hcf⟩ := List.mem_flatten.mp hcol
      obtain ⟨c, hc9, rfl⟩ := List.mem_map.mp hl
      rw [colConflicts_eq] at hcf
      obtain ⟨v, rfl, hlen⟩ :=
        block_sound (F := fun xs => xs.map fun row => Pos.mk row c) hcf
      refine ⟨List.mem_range.mp hc9, v, ?_, ?_, ?_⟩
      · rw [scopePositions_col]
      · rw [List.length_map]
        exact hlen
      · intro p hp
        have hp2 : p ∈ scopePositions g ScopeType.column c v := by
          rw [scopePositions_col]
          exact hp
        exact mem_scopePositions_cell hp2
    · obtain ⟨l, hl, hcf⟩ := List.mem_flatten.mp hbox
      obtain ⟨ll, hll, hl2⟩ := List.mem_flatten.mp hl
      obtain ⟨br, hbr, rfl⟩ := List.mem_map.mp hll
      obtain ⟨bc, hbc, rfl⟩ := List.mem_map.mp hl2
      have hbr3 := List.mem_range.mp hbr
      have hbc3 := List.mem_range.mp hbc
      rw [boxConflicts_eq] at hcf
      obtain ⟨v, rfl, hlen⟩ := block_sound (F := fun xs => xs) hcf
      have hdiv : (br * 3 + bc) / 3 = br := by omega
      have hmod : (br * 3 + bc) % 3 = bc := by omega
      refine ⟨by show br * 3 + bc < 9; omega, v, ?_, ?_, ?_⟩
      · show tagsOf (boxTagged g br bc) v =
          scopePositions g ScopeType.box (br * 3 + bc) v
        rw [scopePositions_box, hdiv, hmod]
      · exact hlen
      · intro p hp
        have hp2 : p ∈ scopePositions g ScopeType.box (br * 3 + bc) v := by
          rw [scopePositions_box, hdiv, hmod]
          exact hp
        exact mem_scopePositions_cell hp2


/-! ### Claim C10 -/

theorem scanDup_count_iff (cells : List Cell) :
    scanDup cells [] = true ↔ ∀ v : Nat, cells.count (some v) ≤ 1 := by
  rw [scanDup_nil_iff]
  constructor
  · intro h v
    have := List.nodup_iff_count_le_one.mp h v
    rwa [count_filterMap_id] at this
  · intro h
    rw [List.nodup_iff_count_le_one]
    intro a
    rw [count_filterMap_id]
    exact h a

theorem tagsOf_length {α : Type} (L : List (α × Cell)) (v : Nat) :
    (tagsOf L v).length = (L.map Prod.snd).count (some v) := by
  rw [tagsOf, List.length_map, ← List.countP_eq_length_filter,
    List.count, List.countP_map]
  rfl

theorem rowTagged_snd (g : Grid) (i : Nat) :
    (rowTagged g i).map Prod.snd = rowCells g i := by
  rw [rowTagged, List.map_map]
  rfl

theorem colTagged_snd (g : Grid) (i : Nat) :
    (colTagged g i).map Prod.snd = colCells g i := by
  rw [colTagged, List.map_map]
  rfl

theorem boxTagged_snd (g : Grid) (br bc : Nat) :
    (boxTagged g br bc).map Prod.snd = boxCells g br bc := by
  rw [boxTagged, List.map_map, boxPosList, List.map_flatten, List.map_map,
    boxCells]
  rfl

theorem dupBuckets_nil_iff {α : Type} [DecidableEq α] (L : List (α × Cell)) :
    ((collectOcc L []).filter fun b => b.2.length > 1) = [] ↔
      ∀ v, (tagsOf L v).length ≤ 1 := by
  constructor
  · intro h v
    by_contra hc
    push_neg at hc
    have hmem : ((v, tagsOf L v)) ∈
        (collectOcc L []).filter fun b => b.2.length > 1 :=
      (mem_dupBuckets_iff L v (tagsOf L v)).mpr ⟨rfl, hc⟩
    rw [h] at hmem
    cases hmem
  · intro h
    rw [List.eq_nil_iff_forall_not_mem]
    intro b hb
    obtain ⟨htags, hlen⟩ := mem_dupBuckets_pair hb
    have := h b.1
    rw [← htags] at this
    omega

/-- C10: the conflict enumeration and the boolean validity check agree:
`findConflicts` returns the empty list exactly when `isValid` is true. -/
theorem C10_findConflicts_nil_iff_isValid (g : Grid) :
    findConflicts g = [] ↔ isValid g = true := by
  have hrowiff : ∀ i, (rowConflicts g i = [] ↔
      scanDup (rowCells g i) [] = true) := by
    intro i
    rw [rowConflicts_eq, List.map_eq_nil_iff, dupBuckets_nil_iff,
      scanDup_count_iff]
    have hlen : ∀ v, (tagsOf (rowTagged g i) v).length =
        (rowCells g i).count (some v) := by
      intro v
      rw [tagsOf_length, rowTagged_snd]
    exact forall_congr' fun v => by rw [hlen v]
  have hcoliff : ∀ i, (colConflicts g i = [] ↔
      scanDup (colCells g i) [] = true) := by
    intro i
    rw [colConflicts_eq, List.map_eq_nil_iff, dupBuckets_nil_iff,
      scanDup_count_iff]
    have hlen : ∀ v, (tagsOf (colTagged g i) v).length =
        (colCells g i).count (some v) := by
      intro v
      rw [tagsOf_length, colTagged_snd]
    exact forall_congr' fun v => by rw [hlen v]
  have hboxiff : ∀ br bc, (boxConflicts g br bc = [] ↔
      scanDup (boxCells g br bc) [] = true) := by
    intro br bc
    rw [boxConflicts_eq, List.map_eq_nil_iff, dupBuckets_nil_iff,
      scanDup_count_iff]
    have hlen : ∀ v, (tagsOf (boxTagged g br bc) v).length =
        (boxCells g br bc).count (some v) := by
      intro v
      rw [tagsOf_length, boxTagged_snd]
    exact forall_congr' fun v => by rw [hlen v]
  have hA : (((List.range 9).map fun r => rowConflicts g r).flatten = [] ↔
      ∀ r, r < 9 → rowConflicts g r = []) := by
    rw [List.flatten_eq_nil_iff]
    constructor
    · intro h r hr
      exact h _ (List.mem_map.mpr ⟨r, List.mem_range.mpr hr, rfl⟩)
    · intro h l hl
      obtain ⟨r, hr, rfl⟩ := List.mem_map.mp hl
      exact h r (List.mem_range.mp hr)
  have hB : (((List.range 9).map fun c => colConflicts g c).flatten = [] ↔
      ∀ c, c < 9 → colConflicts g c = []) := by
    rw [List.flatten_eq_nil_iff]
    constructor
    · intro h c hc
      exact h _ (List.mem_map.mpr ⟨c, List.mem_range.mpr hc, rfl⟩)
    · intro h l hl
      obtain ⟨c, hc, rfl⟩ := List.mem_map.mp hl
      exact h c (List.mem_range.mp hc)
  have hC : (((((List.range 3).map fun boxRow => (List.range 3).map
      fun boxCol => boxConflicts g boxRow boxCol).flatten).flatten = []) ↔
      ∀ br, br < 3 → ∀ bc, bc < 3 → boxConflicts g br bc = []) := by
    rw [List.flatten_eq_nil_iff]
    constructor
    · intro h br hbr bc hbc
      refine h _ (List.mem_flatten.mpr ⟨(List.range 3).map fun boxCol =>
        boxConflicts g br boxCol, ?_, ?_⟩)
      · exact List.mem_map.mpr ⟨br, List.mem_range.mpr hbr, rfl⟩
      · exact List.mem_map.mpr ⟨bc, List.mem_range.mpr hbc, rfl⟩
    · intro h l hl
      obtain ⟨ll, hll, hl2⟩ := List.mem_flatten.mp hl
      obtain ⟨br, hbr, rfl⟩ := List.mem_map.mp hll
      obtain ⟨bc, hbc, rfl⟩ := List.mem_map.mp hl2
      exact h br (List.mem_range.mp hbr) bc (List.mem_range.mp hbc)
  rw [findConflicts, List.append_eq_nil, List.append_eq_nil, hA, hB, hC,
    isValid, Bool.and_eq_true, Bool.and_eq_true]
  simp only [List.all_eq_true, List.mem_range]
  refine and_congr (and_congr ?_ ?_) ?_
  · exact forall_congr' fun r => imp_congr_right fun hr => hrowiff r
  · exact forall_congr' fun c => imp_congr_right fun hc => hcoliff c
  · exact forall_congr' fun br => imp_congr_right fun hbr =>
      forall_congr' fun bc => imp_congr_right fun hbc => hboxiff br bc


/-! ### Fisher-Yates permutation lemmas -/

theorem count_swapL {α : Type} [Inhabited α] [DecidableEq α] (l : List α)
    {i j : Nat} (hi : i < l.length) (hj : j < l.length) (x : α) :
    (swapL l i j).count x = l.count x := by
  rw [swapL]
  have hlen1 : (l.set i (l.getD j default)).length = l.length :=
    List.length_set ..
  have h1 := count_set_add l i (l.getD j default) x hi
  have h2 := count_set_add (l.set i (l.getD j default)) j
    (l.getD i default) x (by omega)
  by_cases hij : i = j
  · subst hij
    rw [List.getElem_set_self] at h2
    simp only [List.getD_eq_getElem l default hi] at h1 h2 ⊢
    omega
  · rw [List.getElem_set_ne hij] at h2
    simp only [List.getD_eq_getElem l default hi,
      List.getD_eq_getElem l default hj] at h1 h2 ⊢
    omega

theorem length_swapL {α : Type} [Inhabited α] (l : List α) (i j : Nat) :
    (swapL l i j).length = l.length := by
  rw [swapL, List.length_set, List.length_set]

theorem swapL_perm {α : Type} [Inhabited α] [DecidableEq α] (l : List α)
    {i j : Nat} (hi : i < l.length) (hj : j < l.length) :
    (swapL l i j).Perm l :=
  List.perm_iff_count.mpr fun x => count_swapL l hi hj x

theorem fyLoop_perm {α : Type} [Inhabited α] [DecidableEq α]
    (rand : Nat → Nat) :
    ∀ (n : Nat) (l : List α), n < l.length → (fyLoop rand l n).Perm l := by
  intro n
  induction n with
  | zero => intro l hn; exact List.Perm.refl l
  | succ n ih =>
    intro l hn
    rw [fyLoop]
    have hj : rand (n + 1) % (n + 2) < l.length := by
      have := Nat.mod_lt (rand (n + 1)) (y := n + 2) (by omega)
      omega
    have hswap := swapL_perm l hn hj
    have hlen := length_swapL l (n + 1) (rand (n + 1) % (n + 2))
    exact (ih _ (by omega)).trans hswap


/-! ### A closed-form solution extending any seeded first row -/

/-- Row shift pattern: row `r` reads the first row shifted by
`(r % 3) * 3 + r / 3`. -/
def offset (r : Nat) : Nat := r % 3 * 3 + r / 3

/-- The standard shifted-rows Sudoku solution built from a first row `p`. -/
def patternGrid (p : List Nat) : Grid :=
  (List.range 9).map fun r => (List.range 9).map fun c =>
    some (p.getD ((c + offset r) % 9) 0)

theorem WF_patternGrid (p : List Nat) : WF (patternGrid p) := by
  constructor
  · simp [patternGrid]
  · intro row hrow
    rw [patternGrid] at hrow
    obtain ⟨r, -, rfl⟩ := List.mem_map.mp hrow
    simp

theorem cell_patternGrid (p : List Nat) {r c : Nat} (hr : r < 9)
    (hc : c < 9) : cell (patternGrid p) r c =
      some (p.getD ((c + offset r) % 9) 0) := by
  rw [cell, patternGrid, getD_map_range _ _ hr, getD_map_range _ _ hc]

theorem getD_inj_of_nodup {l : List Nat} (hnd : l.Nodup) {i j : Nat}
    (hi : i < l.length) (hj : j < l.length) (hij : i ≠ j) :
    l.getD i 0 ≠ l.getD j 0 := by
  rw [List.getD_eq_getElem _ _ hi, List.getD_eq_getElem _ _ hj]
  intro h
  exact hij ((List.Nodup.getElem_inj_iff hnd).mp h)

theorem Good_patternGrid (p : List Nat) (hnd : p.Nodup)
    (hlen : p.length = 9) : Good (patternGrid p) := by
  have hrow_idx : ∀ c1, c1 < 9 → ∀ c2, c2 < 9 → ∀ r, r < 9 → c1 ≠ c2 →
      (c1 + offset r) % 9 ≠ (c2 + offset r) % 9 := by
    intro c1 h1 c2 h2 r hr hne
    simp only [offset]
    omega
  have hcol_idx : ∀ c, c < 9 → ∀ r1, r1 < 9 → ∀ r2, r2 < 9 → r1 ≠ r2 →
      (c + offset r1) % 9 ≠ (c + offset r2) % 9 := by
    intro c hc r1 h1 r2 h2 hne
    simp only [offset]
    omega
  have hbox_idx : ∀ r1, r1 < 9 → ∀ c1, c1 < 9 → ∀ r2, r2 < 9 → ∀ c2, c2 < 9 →
      r1 / 3 = r2 / 3 → c1 / 3 = c2 / 3 → ¬(r1 = r2 ∧ c1 = c2) →
      (c1 + offset r1) % 9 ≠ (c2 + offset r2) % 9 := by
    intro r1 h1 c1 h2 r2 h3 c2 h4 hbr hbc hne
    simp only [offset]
    omega
  have hmod : ∀ k : Nat, k % 9 < p.length := by
    intro k
    rw [hlen]
    omega
  refine ⟨?_, ?_, ?_⟩
  · intro r c1 c2 v hr h1 h2 hne hv1
    rw [cell_patternGrid p hr h1] at hv1
    rw [cell_patternGrid p hr h2]
    intro hv2
    rw [← hv1] at hv2
    exact getD_inj_of_nodup hnd (hmod _) (hmod _)
      (hrow_idx c2 h2 c1 h1 r hr (Ne.symm hne)) (Option.some.inj hv2)
  · intro c r1 r2 v hc h1 h2 hne hv1
    rw [cell_patternGrid p h1 hc] at hv1
    rw [cell_patternGrid p h2 hc]
    intro hv2
    rw [← hv1] at hv2
    exact getD_inj_of_nodup hnd (hmod _) (hmod _)
      (hcol_idx c hc r2 h2 r1 h1 (Ne.symm hne)) (Option.some.inj hv2)
  · intro r1 c1 r2 c2 v h1r h1c h2r h2c hne hbr hbc hv1
    rw [cell_patternGrid p h1r h1c] at hv1
    rw [cell_patternGrid p h2r h2c]
    intro hv2
    rw [← hv1] at hv2
    refine getD_inj_of_nodup hnd (hmod _) (hmod _) ?_ (Option.some.inj hv2)
    exact Ne.symm (hbox_idx r1 h1r c1 h1c r2 h2r c2 h2c hbr hbc hne)

theorem patternGrid_values (p : List Nat) (hlen : p.length = 9) {r c : Nat} :
    p.getD ((c + offset r) % 9) 0 ∈ p := by
  have h : (c + offset r) % 9 < p.length := by
    rw [hlen]
    omega
  rw [List.getD_eq_getElem _ _ h]
  exact List.getElem_mem h

/-! ### The seeded grid of `generateComplete` -/

theorem cell_createEmptyGrid (r c : Nat) : cell createEmptyGrid r c = none := by
  have hrow : createEmptyGrid.getD r [] = [] ∨
      createEmptyGrid.getD r [] = List.replicate 9 (none : Cell) := by
    rcases Nat.lt_or_ge r 9 with hr | hr
    · right
      have h9 : r < (List.replicate 9 (List.replicate 9 (none : Cell))).length := by
        rw [List.length_replicate]
        exact hr
      rw [createEmptyGrid, List.getD_eq_getElem _ _ h9]
      exact List.getElem_replicate ..
    · left
      rw [createEmptyGrid, List.getD_eq_default]
      rw [List.length_replicate]
      exact hr
  rw [cell]
  rcases hrow with h | h <;> rw [h]
  · simp [List.getD]
  · rcases Nat.lt_or_ge c 9 with hc | hc
    · have h9 : c < (List.replicate 9 (none : Cell)).length := by
        rw [List.length_replicate]
        exact hc
      rw [List.getD_eq_getElem _ _ h9]
      exact List.getElem_replicate ..
    · rw [List.getD_eq_default]
      rw [List.length_replicate]
      exact hc

theorem WF_seed (q : List Nat) (hq : q.length = 9) :
    WF (createEmptyGrid.set 0 (q.map some)) := by
  constructor
  · rw [List.length_set]
    decide
  · intro row hrow
    rcases List.mem_or_eq_of_mem_set hrow with h | rfl
    · rw [createEmptyGrid] at h
      rw [List.eq_of_mem_replicate h]
      simp
    · simp [hq]

theorem cell_seed_zero (q : List Nat) (hq : q.length = 9) {c : Nat}
    (hc : c < 9) : cell (createEmptyGrid.set 0 (q.map some)) 0 c =
      some (q.getD c 0) := by
  rw [cell, getD_set_eq _ _ _ _ (by decide)]
  have hcq : c < (q.map some).length := by
    rw [List.length_map, hq]
    exact hc
  rw [List.getD_eq_getElem _ _ hcq, List.getElem_map,
    List.getD_eq_getElem _ _ (by omega)]

theorem cell_seed_ne_zero (q : List Nat) {r c : Nat} (hr : r ≠ 0) :
    cell (createEmptyGrid.set 0 (q.map some)) r c = none := by
  rw [cell, getD_set_ne _ (fun h => hr h.symm), ← cell]
  exact cell_createEmptyGrid r c

theorem cell_seed_some {q : List Nat} (hq : q.length = 9) {r c : Nat}
    {v : Nat} (h : cell (createEmptyGrid.set 0 (q.map some)) r c = some v) :
    r = 0 ∧ c < 9 ∧ q.getD c 0 = v := by
  rcases Nat.decEq r 0 with hr | hr
  · rw [cell_seed_ne_zero q hr] at h
    cases h
  · subst hr
    rcases Nat.lt_or_ge c 9 with hc | hc
    · rw [cell_seed_zero q hq hc] at h
      exact ⟨rfl, hc, Option.some.inj h⟩
    · have h0 : cell (createEmptyGrid.set 0 (q.map some)) 0 c = none :=
        cell_none_of_out_of_range (WF_seed q hq) (Or.inr hc)
      rw [h0] at h
      cases h

theorem Good_seed (q : List Nat) (hq : q.length = 9) (hnd : q.Nodup) :
    Good (createEmptyGrid.set 0 (q.map some)) := by
  refine ⟨?_, ?_, ?_⟩
  · intro r c1 c2 v hr h1 h2 hne hv1 hv2
    obtain ⟨-, hc1, he1⟩ := cell_seed_some hq hv1
    obtain ⟨-, hc2, he2⟩ := cell_seed_some hq hv2
    exact getD_inj_of_nodup hnd (by omega) (by omega) hne (he1.trans he2.symm)
  · intro c r1 r2 v hc h1 h2 hne hv1 hv2
    obtain ⟨he1, -, -⟩ := cell_seed_some hq hv1
    obtain ⟨he2, -, -⟩ := cell_seed_some hq hv2
    exact hne (he1.trans he2.symm)
  · intro r1 c1 r2 c2 v h1r h1c h2r h2c hne hbr hbc hv1 hv2
    obtain ⟨her1, hc1, he1⟩ := cell_seed_some hq hv1
    obtain ⟨her2, hc2, he2⟩ := cell_seed_some hq hv2
    have hcne : c1 ≠ c2 := by
      intro hcc
      exact hne ⟨her1.trans her2.symm, hcc⟩
    exact getD_inj_of_nodup hnd (by omega) (by omega) hcne
      (he1.trans he2.symm)

theorem Extends_seed_pattern (q : List Nat) (hq : q.length = 9) :
    Extends (createEmptyGrid.set 0 (q.map some)) (patternGrid q) := by
  intro r c v hv
  obtain ⟨rfl, hc, he⟩ := cell_seed_some hq hv
  rw [cell_patternGrid q (by omega) hc]
  have hoff : offset 0 = 0 := rfl
  rw [hoff, Nat.add_zero, Nat.mod_eq_of_lt hc, he]


/-! ### Correctness of `generateComplete` -/

theorem no_empty_of_isComplete {g : Grid} (h : isComplete g = true) :
    ∀ r c, r < 9 → c < 9 → cell g r c ≠ none := by
  rw [isComplete, Bool.and_eq_true] at h
  obtain ⟨hall, -⟩ := h
  rw [List.all_eq_true] at hall
  intro r c hr hc
  have h2 := hall r (List.mem_range.mpr hr)
  rw [List.all_eq_true] at h2
  have h3 := h2 c (List.mem_range.mpr hc)
  simpa using h3

theorem isValid_of_isComplete {g : Grid} (h : isComplete g = true) :
    isValid g = true := by
  rw [isComplete, Bool.and_eq_true] at h
  exact h.2

theorem generateComplete_of_perm (q : List Nat)
    (hperm : q.Perm (List.range' 1 9)) :
    WF ((solve (createEmptyGrid.set 0 (q.map some))).getD createEmptyGrid) ∧
    isComplete ((solve (createEmptyGrid.set 0 (q.map some))).getD
      createEmptyGrid) = true := by
  have hq9 : q.length = 9 := by
    rw [hperm.length_eq]
    rfl
  have hqnd : q.Nodup := hperm.nodup_iff.mpr (by decide)
  have hqmem : ∀ x ∈ q, 1 ≤ x ∧ x ≤ 9 := by
    intro x hx
    have hx2 : x ∈ List.range' 1 9 := hperm.subset hx
    obtain ⟨i, hi, heq⟩ := List.mem_range'.mp hx2
    omega
  have hWFseed := WF_seed q hq9
  have hsol : IsSolutionFor (patternGrid q)
      (createEmptyGrid.set 0 (q.map some)) := by
    refine ⟨WF_patternGrid q, Good_patternGrid q hqnd hq9,
      Extends_seed_pattern q hq9, ?_⟩
    intro r c hr hc
    refine ⟨q.getD ((c + offset r) % 9) 0, ?_, ?_, cell_patternGrid q hr hc⟩
    · exact (hqmem _ (patternGrid_values q hq9)).1
    · exact (hqmem _ (patternGrid_values q hq9)).2
  have hsome : (solveAux 81 (createEmptyGrid.set 0 (q.map some))).isSome :=
    solveAux_complete hWFseed
      (by have := emptyCount_le (createEmptyGrid.set 0 (q.map some)); omega)
      ⟨patternGrid q, hsol⟩
  have hsolve : (solve (createEmptyGrid.set 0 (q.map some))).isSome := by
    rw [solve, copyGrid_eq]
    exact hsome
  obtain ⟨s, hs⟩ := Option.isSome_iff_exists.mp hsolve
  have hs2 : solveAux 81 (createEmptyGrid.set 0 (q.map some)) = some s := by
    rw [solve, copyGrid_eq] at hs
    exact hs
  rw [hs]
  have hWFs : WF s := solveAux_some_WF hWFseed hs2
  have hGs : Good s := solveAux_some_good hWFseed (Good_seed q hq9 hqnd) hs2
  have hne : findEmpty s = none := solveAux_some_noEmpty hs2
  exact ⟨hWFs, isComplete_eq_true_of hne hGs⟩

theorem generateComplete_spec (rand : Nat → Nat) :
    WF (generateComplete rand) ∧ isComplete (generateComplete rand) = true :=
  generateComplete_of_perm (fyLoop rand (List.range' 1 9) 8)
    (fyLoop_perm rand 8 _ (by decide))

/-! ### The removal fold of `generatePuzzle` -/

theorem WF_removeFold : ∀ (ps : List Pos) (g : Grid), WF g →
    WF (ps.foldl (fun pz p => setCell pz p.row p.col none) g) := by
  intro ps
  induction ps with
  | nil => intro g hWF; exact hWF
  | cons p t ih =>
    intro g hWF
    rw [List.foldl_cons]
    exact ih _ (WF_setCell hWF _ _ _)

theorem cell_removeFold : ∀ (ps : List Pos) (g : Grid), WF g →
    ∀ r c, r < 9 → c < 9 →
    cell (ps.foldl (fun pz p => setCell pz p.row p.col none) g) r c =
      if Pos.mk r c ∈ ps then none else cell g r c := by
  intro ps
  induction ps with
  | nil =>
    intro g hWF r c hr hc
    simp
  | cons p t ih =>
    intro g hWF r c hr hc
    rw [List.foldl_cons, ih _ (WF_setCell hWF _ _ _) r c hr hc]
    by_cases hmem : Pos.mk r c ∈ t
    · rw [if_pos hmem, if_pos (List.mem_cons.mpr (Or.inr hmem))]
    · rw [if_neg hmem]
      by_cases hp : Pos.mk r c = p
      · rw [← hp]
        rw [cell_setCell_eq hWF hr hc]
        rw [if_pos (List.mem_cons.mpr (Or.inl rfl))]
      · have hne : r ≠ p.row ∨ c ≠ p.col := by
          by_contra hcon
          push_neg at hcon
          exact hp (by cases p; simp_all)
        rw [cell_setCell_ne hWF hne]
        rw [if_neg (by
          intro hc2
          rcases List.mem_cons.mp hc2 with h | h
          · exact hp h
          · exact hmem h)]

theorem count_eq_ite_of_nodup {β : Type} [DecidableEq β] {l : List β}
    (hnd : l.Nodup) (a : β) : l.count a = if a ∈ l then 1 else 0 := by
  by_cases hm : a ∈ l
  · rw [if_pos hm]
    have h1 := List.nodup_iff_count_le_one.mp hnd a
    have h2 := List.count_pos_iff_mem.mpr hm
    omega
  · rw [if_neg hm]
    exact List.count_eq_zero.mpr hm

theorem countP_mem_of_nodup {l ps : List Pos} (hl : l.Nodup) (hps : ps.Nodup)
    (hsub : ∀ p ∈ ps, p ∈ l) :
    l.countP (fun p => decide (p ∈ ps)) = ps.length := by
  rw [List.countP_eq_length_filter]
  have hperm : (l.filter (fun p => decide (p ∈ ps))).Perm ps := by
    rw [List.perm_iff_count]
    intro x
    rw [count_eq_ite_of_nodup (hl.filter _) x, count_eq_ite_of_nodup hps x]
    by_cases hx : x ∈ ps
    · rw [if_pos (List.mem_filter.mpr ⟨hsub x hx, by simpa using hx⟩),
        if_pos hx]
    · rw [if_neg (fun hc => hx (by simpa using (List.mem_filter.mp hc).2)),
        if_neg hx]
  exact hperm.length_eq

theorem filledCount_removeFold (s : Grid) (hWF : WF s)
    (hfull : ∀ r c, r < 9 → c < 9 → cell s r c ≠ none) (ps : List Pos)
    (hnd : ps.Nodup) (hsub : ∀ p ∈ ps, p ∈ rowMajor) :
    filledCount (ps.foldl (fun pz p => setCell pz p.row p.col none) s) =
      81 - ps.length := by
  rw [filledCount]
  have hcong : ∀ p ∈ rowMajor,
      (!(cell (ps.foldl (fun pz p2 => setCell pz p2.row p2.col none) s)
        p.row p.col == none)) = (!decide (p ∈ ps)) := by
    intro p hp
    obtain ⟨hr, hc⟩ := mem_rowMajor.mp hp
    rw [cell_removeFold ps s hWF p.row p.col hr hc]
    by_cases hmem : p ∈ ps
    · rw [if_pos hmem]
      simp [hmem]
    · rw [if_neg hmem]
      have := hfull p.row p.col hr hc
      rcases hcell : cell s p.row p.col with _ | v
      · exact absurd hcell this
      · simp [hmem]
  rw [List.countP_congr (fun p hp => by rw [hcong p hp])]
  have hpos := countP_mem_of_nodup rowMajor_nodup hnd hsub
  have htot := List.length_eq_countP_add_countP
    (l := rowMajor) (p := fun p => decide (p ∈ ps))
  rw [rowMajor_length] at htot
  have hc2 : (fun p : Pos => !decide (p ∈ ps)) =
      fun p : Pos => decide ¬(decide (p ∈ ps) = true) := by
    funext p
    by_cases h : p ∈ ps <;> simp [h]
  rw [hc2]
  omega

theorem removeFold_subset (s : Grid) (hWF : WF s) (ps : List Pos) :
    ∀ r c v, cell (ps.foldl (fun pz p => setCell pz p.row p.col none) s)
      r c = some v → cell s r c = some v := by
  intro r c v h
  obtain ⟨hr, hc⟩ := cell_some_range (WF_removeFold ps s hWF) h
  rw [cell_removeFold ps s hWF r c hr hc] at h
  by_cases hmem : Pos.mk r c ∈ ps
  · rw [if_pos hmem] at h
    cases h
  · rw [if_neg hmem] at h
    exact h


/-- C3: for every difficulty, `generatePuzzle` returns a pair
(puzzle, solution) where the solution is complete and valid, the puzzle has
exactly 81 - N(d) filled cells with N given by the fixed removal table
(easy 35, medium 45, hard 50, expert 55, master 60, extreme 65), and every
filled cell of the puzzle holds the corresponding cell of the solution. -/
theorem C3_generatePuzzle (d : Difficulty) (randRow randPos : Nat → Nat) :
    (getCellsToRemove Difficulty.easy = 35 ∧
     getCellsToRemove Difficulty.medium = 45 ∧
     getCellsToRemove Difficulty.hard = 50 ∧
     getCellsToRemove Difficulty.expert = 55 ∧
     getCellsToRemove Difficulty.master = 60 ∧
     getCellsToRemove Difficulty.extreme = 65) ∧
    isComplete (generatePuzzle d randRow randPos).2 = true ∧
    isValid (generatePuzzle d randRow randPos).2 = true ∧
    filledCount (generatePuzzle d randRow randPos).1 =
      81 - getCellsToRemove d ∧
    (∀ r c v, cell (generatePuzzle d randRow randPos).1 r c = some v →
      cell (generatePuzzle d randRow randPos).2 r c = some v) := by
  obtain ⟨hWFs, hcomp⟩ := generateComplete_spec randRow
  have h2 : (generatePuzzle d randRow randPos).2 =
      generateComplete randRow := by
    unfold generatePuzzle
    simp only []
  have h1 : (generatePuzzle d randRow randPos).1 =
      ((fyLoop randPos rowMajor 80).take (getCellsToRemove d)).foldl
        (fun pz p => setCell pz p.row p.col none)
        (copyGrid (generateComplete randRow)) := by
    unfold generatePuzzle
    simp only []
  rw [copyGrid_eq] at h1
  have hperm := fyLoop_perm randPos 80 rowMajor (by rw [rowMajor_length]; omega)
  have hshlen : (fyLoop randPos rowMajor 80).length = 81 := by
    rw [hperm.length_eq, rowMajor_length]
  have hshnd : (fyLoop randPos rowMajor 80).Nodup :=
    hperm.nodup_iff.mpr rowMajor_nodup
  have hndps : ((fyLoop randPos rowMajor 80).take
      (getCellsToRemove d)).Nodup :=
    List.Nodup.sublist (List.take_sublist _ _) hshnd
  have hsubps : ∀ p ∈ (fyLoop randPos rowMajor 80).take (getCellsToRemove d),
      p ∈ rowMajor :=
    fun p hp => hperm.subset (List.mem_of_mem_take hp)
  have hlenps : ((fyLoop randPos rowMajor 80).take
      (getCellsToRemove d)).length = getCellsToRemove d := by
    rw [List.length_take, hshlen]
    have hle : getCellsToRemove d ≤ 81 := by cases d <;> decide
    omega
  have hfull := no_empty_of_isComplete hcomp
  rw [h1, h2]
  refine ⟨⟨rfl, rfl, rfl, rfl, rfl, rfl⟩, hcomp, isValid_of_isComplete hcomp,
    ?_, ?_⟩
  · rw [filledCount_removeFold _ hWFs hfull _ hndps hsubps, hlenps]
  · intro r c v hv
    exact removeFold_subset _ hWFs _ r c v hv


end Sudoku
